import Mathlib

/-!
Verification development for the birdhouse provider/streaming core.

JavaScript strings are modelled as `List Char`; JSON values produced by
`JSON.parse` are modelled by the finite-tree type `Json` below (numbers are
modelled as integers, which covers every number occurring in the protocol;
object properties are kept in insertion order with later duplicate keys
overwriting earlier ones, as `JSON.parse` does).
-/

/-- A JavaScript string, modelled as its list of characters. -/
abbrev JStr := List Char

/-- Coerce a Lean string literal into the `JStr` model. -/
def js (s : String) : JStr := s.data

/-- JavaScript whitespace test (the characters relevant to `trim` and JSON). -/
def isWsC (c : Char) : Bool :=
  c = ' ' || c = '\n' || c = '\t' || c = '\r'

/-- Model of `String.prototype.trim`: drop whitespace from both ends. -/
def trimJs (s : JStr) : JStr :=
  ((s.dropWhile isWsC).reverse.dropWhile isWsC).reverse

/-- Split on a single newline character (the `split("\n")` of the SSE code). -/
def splitNl : JStr → List JStr
  | [] => [[]]
  | c :: rest =>
    if c = '\n' then [] :: splitNl rest
    else
      match splitNl rest with
      | [] => [[c]]
      | h :: t => (c :: h) :: t

/-- Split on `\r\n` or `\n`, the regex `/\r?\n/` used by the line chunkers. -/
def splitLinesCR : JStr → List JStr
  | [] => [[]]
  | [c] => if c = '\n' then [[], []] else [[c]]
  | c :: d :: rest =>
    if c = '\r' ∧ d = '\n' then [] :: splitLinesCR rest
    else if c = '\n' then [] :: splitLinesCR (d :: rest)
    else
      match splitLinesCR (d :: rest) with
      | [] => [[c]]
      | h :: t => (c :: h) :: t

/-- Replace every `\r\n` pair by `\n` (`buffer.replace(/\r\n/g, "\n")`). -/
def normalizeCrlf : JStr → JStr
  | [] => []
  | [c] => [c]
  | c :: d :: rest =>
    if c = '\r' ∧ d = '\n' then '\n' :: normalizeCrlf rest
    else c :: normalizeCrlf (d :: rest)

/-- Join a list of strings with newline separators (`join("\n")`). -/
def joinNl (parts : List JStr) : JStr := (parts.intersperse ['\n']).flatten

/-- Decimal digit test. -/
def isDigitC (c : Char) : Bool := '0' ≤ c && c ≤ '9'

/-- Fuel-bounded digit expansion (the fuel keeps the recursion structural). -/
def natDecAux : Nat → Nat → List Char
  | 0, _ => []
  | f + 1, n =>
    if n < 10 then [Nat.digitChar n]
    else natDecAux f (n / 10) ++ [Nat.digitChar (n % 10)]

/-- The decimal digit characters of a natural number, most significant first. -/
def natDec (n : Nat) : List Char := natDecAux (n + 1) n

/-- Decimal rendering of an integer (`${n}` for the integers we model). -/
def intDec (n : Int) : List Char :=
  if n < 0 then '-' :: natDec n.natAbs else natDec n.natAbs

/-- JSON values, as produced by `JSON.parse`. -/
inductive Json where
  | null
  | bool (b : Bool)
  | num (n : Int)
  | str (s : JStr)
  | arr (items : List Json)
  | obj (fields : List (JStr × Json))

/-- Lowercase hexadecimal digit for a value below 16. -/
def hexDig (n : Nat) : Char :=
  if n < 10 then Char.ofNat ('0'.toNat + n) else Char.ofNat ('a'.toNat + n - 10)

/-- Value of a hexadecimal digit character. -/
def hexVal (c : Char) : Option Nat :=
  if '0' ≤ c ∧ c ≤ '9' then some (c.toNat - '0'.toNat)
  else if 'a' ≤ c ∧ c ≤ 'f' then some (c.toNat - 'a'.toNat + 10)
  else if 'A' ≤ c ∧ c ≤ 'F' then some (c.toNat - 'A'.toNat + 10)
  else none

/-- `JSON.stringify` escaping for one character inside a string literal. -/
def escChar (c : Char) : List Char :=
  if c = '"' then ['\\', '"']
  else if c = '\\' then ['\\', '\\']
  else if c = '\n' then ['\\', 'n']
  else if c = '\r' then ['\\', 'r']
  else if c = '\t' then ['\\', 't']
  else if c = '\x08' then ['\\', 'b']
  else if c = '\x0c' then ['\\', 'f']
  else if c.toNat < 32 then ['\\', 'u', '0', '0', hexDig (c.toNat / 16), hexDig (c.toNat % 16)]
  else [c]

/-- `JSON.stringify` escaping of a whole string body. -/
def escList : JStr → List Char
  | [] => []
  | c :: cs => escChar c ++ escList cs

/-- A JSON string literal: quote, escaped body, quote. -/
def strLit (s : JStr) : List Char := '"' :: (escList s ++ ['"'])

mutual

/-- Model of `JSON.stringify` (compact form, no extra whitespace). -/
def jsonStringify : Json → List Char
  | .null => 'n' :: ['u', 'l', 'l']
  | .bool true => 't' :: ['r', 'u', 'e']
  | .bool false => 'f' :: ['a', 'l', 's', 'e']
  | .num n => intDec n
  | .str s => strLit s
  | .arr items => '[' :: (stringifyItems items ++ [']'])
  | .obj fields => '\x7b' :: (stringifyFields fields ++ ['\x7d'])

/-- Comma-separated stringification of array items. -/
def stringifyItems : List Json → List Char
  | [] => []
  | [j] => jsonStringify j
  | j :: rest => jsonStringify j ++ ',' :: stringifyItems rest

/-- Comma-separated stringification of object members. -/
def stringifyFields : List (JStr × Json) → List Char
  | [] => []
  | [(k, v)] => strLit k ++ ':' :: jsonStringify v
  | (k, v) :: rest => strLit k ++ ':' :: jsonStringify v ++ ',' :: stringifyFields rest

end

/-- Drop leading JSON whitespace. -/
def skipWs (cs : List Char) : List Char := cs.dropWhile isWsC

/-- Longest leading run of decimal digits, and the remainder. -/
def spanDigits : List Char → (List Char × List Char)
  | [] => ([], [])
  | c :: rest =>
    if isDigitC c then
      let p := spanDigits rest
      (c :: p.1, p.2)
    else ([], c :: rest)

/-- Numeric value of a digit string (most significant first). -/
def digitsVal (ds : List Char) : Nat :=
  ds.foldl (fun acc c => 10 * acc + (c.toNat - '0'.toNat)) 0

/-- Resolve a single-character JSON escape. -/
def unescape (e : Char) : Option Char :=
  if e = '"' then some '"'
  else if e = '\\' then some '\\'
  else if e = '/' then some '/'
  else if e = 'n' then some '\n'
  else if e = 'r' then some '\r'
  else if e = 't' then some '\t'
  else if e = 'b' then some '\x08'
  else if e = 'f' then some '\x0c'
  else none

/-- Read four hexadecimal digits, returning their value and the remainder. -/
def readHex4 : List Char → Option (Nat × List Char)
  | d1 :: d2 :: d3 :: d4 :: rest =>
    match hexVal d1, hexVal d2, hexVal d3, hexVal d4 with
    | some a, some b, some c, some d => some (a * 4096 + b * 256 + c * 16 + d, rest)
    | _, _, _, _ => none
  | _ => none

/-- Parse the body of a JSON string literal (after the opening quote). -/
def parseStrBody : Nat → List Char → Option (JStr × List Char)
  | 0, _ => none
  | _ + 1, [] => none
  | f + 1, c :: rest =>
    if c = '"' then some ([], rest)
    else if c = '\\' then
      match rest with
      | [] => none
      | e :: rest2 =>
        if e = 'u' then
          match readHex4 rest2 with
          | some (n, rest3) => (parseStrBody f rest3).map (fun p => (Char.ofNat n :: p.1, p.2))
          | none => none
        else
          match unescape e with
          | some u => (parseStrBody f rest2).map (fun p => (u :: p.1, p.2))
          | none => none
    else (parseStrBody f rest).map (fun p => (c :: p.1, p.2))

mutual

/-- Fuel-bounded model of `JSON.parse` on a value (whitespace-tolerant,
numbers restricted to the integers of the model). -/
def parseValue : Nat → List Char → Option (Json × List Char)
  | 0, _ => none
  | f + 1, cs =>
    match skipWs cs with
    | [] => none
    | c :: rest =>
      if c = '\x7b' then
        match skipWs rest with
        | [] => none
        | d :: rest2 =>
          if d = '\x7d' then some (.obj [], rest2)
          else (parseMembers f (skipWs rest)).map (fun p => (Json.obj p.1, p.2))
      else if c = '[' then
        match skipWs rest with
        | [] => none
        | d :: rest2 =>
          if d = ']' then some (.arr [], rest2)
          else (parseItems f (skipWs rest)).map (fun p => (Json.arr p.1, p.2))
      else if c = '"' then
        (parseStrBody (rest.length + 1) rest).map (fun p => (.str p.1, p.2))
      else if c = 't' then
        if ['r', 'u', 'e'].isPrefixOf rest then some (.bool true, rest.drop 3) else none
      else if c = 'f' then
        if ['a', 'l', 's', 'e'].isPrefixOf rest then some (.bool false, rest.drop 4) else none
      else if c = 'n' then
        if ['u', 'l', 'l'].isPrefixOf rest then some (.null, rest.drop 3) else none
      else if c = '-' then
        let p := spanDigits rest
        if p.1 = [] then none else some (.num (-(digitsVal p.1 : Int)), p.2)
      else if isDigitC c then
        let p := spanDigits (c :: rest)
        if p.1 = [] then none else some (.num (digitsVal p.1 : Int), p.2)
      else none

/-- Parse one or more object members followed by a closing brace. -/
def parseMembers : Nat → List Char → Option (List (JStr × Json) × List Char)
  | 0, _ => none
  | f + 1, cs =>
    match cs with
    | [] => none
    | c :: rest =>
      if c = '"' then
        match parseStrBody (rest.length + 1) rest with
        | none => none
        | some (key, r1) =>
          match skipWs r1 with
          | [] => none
          | d :: r2 =>
            if d = ':' then
              match parseValue f r2 with
              | none => none
              | some (v, r3) =>
                match skipWs r3 with
                | [] => none
                | e :: r4 =>
                  if e = ',' then
                    (parseMembers f (skipWs r4)).map (fun p => ((key, v) :: p.1, p.2))
                  else if e = '\x7d' then some ([(key, v)], r4)
                  else none
            else none
      else none

/-- Parse one or more array items followed by a closing bracket. -/
def parseItems : Nat → List Char → Option (List Json × List Char)
  | 0, _ => none
  | f + 1, cs =>
    match parseValue f cs with
    | none => none
    | some (j, r1) =>
      match skipWs r1 with
      | [] => none
      | e :: r2 =>
        if e = ',' then
          (parseItems f (skipWs r2)).map (fun p => (j :: p.1, p.2))
        else if e = ']' then some ([j], r2)
        else none

end

/-- Overwrite-semantics insertion used to model duplicate JSON object keys:
a later binding replaces an earlier one in place, as `JSON.parse` does. -/
def upsertField (fields : List (JStr × Json)) (k : JStr) (v : Json) : List (JStr × Json) :=
  match fields with
  | [] => [(k, v)]
  | (k0, v0) :: rest =>
    if k0 = k then (k0, v) :: rest else (k0, v0) :: upsertField rest k v

/-- Apply JavaScript object-literal semantics to a parsed member list. -/
def dedupFields (fields : List (JStr × Json)) : List (JStr × Json) :=
  fields.foldl (fun acc p => upsertField acc p.1 p.2) []

mutual

/-- Rebuild a parsed JSON tree with object duplicate keys resolved. -/
def dedupJson : Json → Json
  | .null => .null
  | .bool b => .bool b
  | .num n => .num n
  | .str s => .str s
  | .arr items => .arr (dedupItems items)
  | .obj fields => .obj (dedupFields (dedupMembers fields))

/-- Resolve duplicates inside every array item. -/
def dedupItems : List Json → List Json
  | [] => []
  | j :: rest => dedupJson j :: dedupItems rest

/-- Resolve duplicates inside every member value. -/
def dedupMembers : List (JStr × Json) → List (JStr × Json)
  | [] => []
  | (k, v) :: rest => (k, dedupJson v) :: dedupMembers rest

end

/-- Model of `JSON.parse` on a whole document: parse one value, allow
trailing whitespace only, and resolve duplicate object keys. -/
def jsonParse (s : JStr) : Option Json :=
  match parseValue (s.length + 1) s with
  | some (j, rest) => if skipWs rest = [] then some (dedupJson j) else none
  | none => none

mutual

/-- Fuel needed by `parseValue` to parse the stringification of a value. -/
def needV : Json → Nat
  | .null => 1
  | .bool _ => 1
  | .num _ => 1
  | .str _ => 1
  | .arr [] => 1
  | .arr (j :: rest) => 1 + needI (j :: rest)
  | .obj [] => 1
  | .obj (p :: rest) => 1 + needM (p :: rest)

/-- Fuel needed by `parseItems` for a non-empty item list. -/
def needI : List Json → Nat
  | [] => 1
  | [j] => 1 + needV j
  | j :: rest => 1 + max (needV j) (needI rest)

/-- Fuel needed by `parseMembers` for a non-empty member list. -/
def needM : List (JStr × Json) → Nat
  | [] => 1
  | [(_, v)] => 1 + needV v
  | (_, v) :: rest => 1 + max (needV v) (needM rest)

end

/-- The remainder does not start with a decimal digit (needed so that a
number's digits are not extended by what follows it). -/
def headNotDigit (rest : List Char) : Prop :=
  ∀ c, rest.head? = some c → isDigitC c = false

mutual

/-- Every object inside the value has pairwise-distinct keys. -/
def keysOkV : Json → Prop
  | .null => True
  | .bool _ => True
  | .num _ => True
  | .str _ => True
  | .arr items => keysOkI items
  | .obj fields => (fields.map Prod.fst).Nodup ∧ keysOkM fields

/-- Key-distinctness for every item of an array. -/
def keysOkI : List Json → Prop
  | [] => True
  | j :: rest => keysOkV j ∧ keysOkI rest

/-- Key-distinctness for every member value of an object. -/
def keysOkM : List (JStr × Json) → Prop
  | [] => True
  | (_, v) :: rest => keysOkV v ∧ keysOkM rest

end

/-- Message status enumeration (`MessageStatusSchema`). -/
inductive MsgStatus where
  | sending | sent | received | read | failed | streaming
deriving DecidableEq

/-- Attachment kind enumeration (`kind: z.enum(["image", "file"])`). -/
inductive AttachKind where
  | image | file
deriving DecidableEq

/-- An attachment (`AttachmentSchema`); absent optional fields are `none`. -/
structure AttachmentV where
  id : Option JStr
  kind : AttachKind
  name : JStr
  mimeType : Option JStr
  sizeBytes : Option Nat
  uri : Option JStr
  dataBase64 : Option JStr
deriving DecidableEq

/-- The protocol's stream events (`StreamEventSchema` discriminated union). -/
inductive StreamEvent where
  | message_start (messageId threadId createdAt : JStr)
  | token (text : JStr)
  | attachment (att : AttachmentV)
  | typing (isTyping : Bool)
  | message_end (messageId text : JStr) (status : MsgStatus) (createdAt : JStr)
  | error (code message : JStr) (retryable : Bool)
deriving DecidableEq

/-- Wire name of a message status. -/
def statusToStr : MsgStatus → JStr
  | .sending => js "sending"
  | .sent => js "sent"
  | .received => js "received"
  | .read => js "read"
  | .failed => js "failed"
  | .streaming => js "streaming"

/-- Parse a message status from its wire name. -/
def statusOfStr (s : JStr) : Option MsgStatus :=
  if s = js "sending" then some .sending
  else if s = js "sent" then some .sent
  else if s = js "received" then some .received
  else if s = js "read" then some .read
  else if s = js "failed" then some .failed
  else if s = js "streaming" then some .streaming
  else none

/-- Wire name of an attachment kind. -/
def kindToStr : AttachKind → JStr
  | .image => js "image"
  | .file => js "file"

/-- A member list containing the key only when the optional value is present
(`JSON.stringify` omits absent properties). -/
def optField (k : JStr) (v : Option Json) : List (JStr × Json) :=
  match v with
  | none => []
  | some j => [(k, j)]

/-- JSON object for an attachment, keys in schema order. -/
def attachmentToJson (a : AttachmentV) : Json :=
  .obj (optField (js "id") (a.id.map .str) ++
    ([(js "kind", .str (kindToStr a.kind)), (js "name", .str a.name)] ++
      (optField (js "mimeType") (a.mimeType.map .str) ++
        (optField (js "sizeBytes") (a.sizeBytes.map (fun n => .num (n : Int))) ++
          (optField (js "uri") (a.uri.map .str) ++
            optField (js "dataBase64") (a.dataBase64.map .str))))))

/-- JSON object for a stream event, keys in the order the code emits them. -/
def eventToJson : StreamEvent → Json
  | .message_start mid tid ca =>
    .obj [(js "type", .str (js "message_start")), (js "messageId", .str mid),
      (js "threadId", .str tid), (js "createdAt", .str ca)]
  | .token t => .obj [(js "type", .str (js "token")), (js "text", .str t)]
  | .attachment a =>
    .obj [(js "type", .str (js "attachment")), (js "attachment", attachmentToJson a)]
  | .typing b => .obj [(js "type", .str (js "typing")), (js "isTyping", .bool b)]
  | .message_end mid txt st ca =>
    .obj [(js "type", .str (js "message_end")), (js "messageId", .str mid),
      (js "text", .str txt), (js "status", .str (statusToStr st)),
      (js "createdAt", .str ca)]
  | .error c m r =>
    .obj [(js "type", .str (js "error")), (js "code", .str c),
      (js "message", .str m), (js "retryable", .bool r)]

/-- Last-binding property lookup, matching JavaScript object semantics. -/
def jlookup : List (JStr × Json) → JStr → Option Json
  | [], _ => none
  | (k, v) :: rest, key =>
    match jlookup rest key with
    | some r => some r
    | none => if k = key then some v else none

/-- Property access `j?.key`: objects only, `undefined` is `none`. -/
def jget (j : Json) (key : JStr) : Option Json :=
  match j with
  | .obj fields => jlookup fields key
  | _ => none

/-- `z.string()` on a property. -/
def getStr (j : Json) (k : JStr) : Option JStr :=
  match jget j k with
  | some (.str s) => some s
  | _ => none

/-- `z.string().min(1)` on a property. -/
def getStr1 (j : Json) (k : JStr) : Option JStr :=
  match getStr j k with
  | some s => if s = [] then none else some s
  | none => none

/-- `z.boolean()` on a property. -/
def getBool (j : Json) (k : JStr) : Option Bool :=
  match jget j k with
  | some (.bool b) => some b
  | _ => none

/-- `z.string().min(1).optional()` on a property. -/
def getOptStr1 (j : Json) (k : JStr) : Option (Option JStr) :=
  match jget j k with
  | none => some none
  | some (.str s) => if s = [] then none else some (some s)
  | some _ => none

/-- `z.number().int().nonnegative().optional()` on a property. -/
def getOptSize (j : Json) (k : JStr) : Option (Option Nat) :=
  match jget j k with
  | none => some none
  | some (.num n) => if n < 0 then none else some (some n.toNat)
  | some _ => none

/-- `z.boolean().default(false)` on a property. -/
def getBoolDefFalse (j : Json) (k : JStr) : Option Bool :=
  match jget j k with
  | none => some false
  | some (.bool b) => some b
  | some _ => none

/-- Fractional-seconds tail of an ISO timestamp: one or more digits, then Z. -/
def fracTail : List Char → Bool
  | ['Z'] => true
  | c :: rest => isDigitC c && fracTail rest
  | [] => false

/-- Tail after the seconds field: `Z` or `.<digits>Z`. -/
def isoTail : List Char → Bool
  | ['Z'] => true
  | '.' :: c :: rest => isDigitC c && fracTail rest
  | _ => false

/-- The default `z.string().datetime()` shape:
`^\d\x7b4\x7d-\d\x7b2\x7d-\d\x7b2\x7dT\d\x7b2\x7d:\d\x7b2\x7d:\d\x7b2\x7d(\.\d+)?Z$`. -/
def isIsoDatetime (s : JStr) : Bool :=
  match s with
  | y1 :: y2 :: y3 :: y4 :: '-' :: m1 :: m2 :: '-' :: d1 :: d2 :: 'T' ::
      h1 :: h2 :: ':' :: mi1 :: mi2 :: ':' :: s1 :: s2 :: tail =>
    isDigitC y1 && isDigitC y2 && isDigitC y3 && isDigitC y4 &&
    isDigitC m1 && isDigitC m2 && isDigitC d1 && isDigitC d2 &&
    isDigitC h1 && isDigitC h2 && isDigitC mi1 && isDigitC mi2 &&
    isDigitC s1 && isDigitC s2 && isoTail tail
  | _ => false

/-- `z.string().datetime()` on a property. -/
def getDatetime (j : Json) (k : JStr) : Option JStr :=
  match getStr j k with
  | some s => if isIsoDatetime s then some s else none
  | none => none

/-- `AttachmentSchema.safeParse`, modelling zod object validation (unknown
keys are stripped, optional keys may be absent). -/
def validateAttachment (j : Json) : Option AttachmentV :=
  match jget j (js "kind") with
  | some (.str k) =>
    let kindO : Option AttachKind :=
      if k = js "image" then some AttachKind.image
      else if k = js "file" then some AttachKind.file
      else none
    match kindO, getStr1 j (js "name"), getOptStr1 j (js "id"),
        getOptStr1 j (js "mimeType"), getOptSize j (js "sizeBytes"),
        getOptStr1 j (js "uri"), getOptStr1 j (js "dataBase64") with
    | some kind, some name, some idv, some mt, some sb, some uri, some db =>
      some ⟨idv, kind, name, mt, sb, uri, db⟩
    | _, _, _, _, _, _, _ => none
  | _ => none

/-- `StreamEventSchema.safeParse`: discriminated union on `type`. -/
def validateStreamEvent (j : Json) : Option StreamEvent :=
  match jget j (js "type") with
  | some (.str t) =>
    if t = js "message_start" then
      match getStr1 j (js "messageId"), getStr1 j (js "threadId"),
          getDatetime j (js "createdAt") with
      | some mid, some tid, some ca => some (.message_start mid tid ca)
      | _, _, _ => none
    else if t = js "token" then
      match getStr j (js "text") with
      | some txt => some (.token txt)
      | none => none
    else if t = js "attachment" then
      match jget j (js "attachment") with
      | some aj => (validateAttachment aj).map .attachment
      | none => none
    else if t = js "typing" then
      match getBool j (js "isTyping") with
      | some b => some (.typing b)
      | none => none
    else if t = js "message_end" then
      match getStr1 j (js "messageId"), getStr j (js "text"),
          (match getStr j (js "status") with
           | some s => statusOfStr s
           | none => none),
          getDatetime j (js "createdAt") with
      | some mid, some txt, some st, some ca => some (.message_end mid txt st ca)
      | _, _, _, _ => none
    else if t = js "error" then
      match getStr1 j (js "code"), getStr1 j (js "message"),
          getBoolDefFalse j (js "retryable") with
      | some c, some m, some r => some (.error c m r)
      | _, _, _ => none
    else none
  | _ => none

/-- A present optional string is non-empty. -/
def optNonempty : Option JStr → Bool
  | none => true
  | some s => !s.isEmpty

/-- The schema refinements on an attachment value. -/
def attachmentWf (a : AttachmentV) : Bool :=
  !a.name.isEmpty && optNonempty a.id && optNonempty a.mimeType &&
    optNonempty a.uri && optNonempty a.dataBase64

/-- The schema refinements (`min(1)`, `datetime()`) on an event value:
exactly the conditions under which `StreamEventSchema` accepts the event's
own serialization. -/
def eventWf : StreamEvent → Bool
  | .message_start mid tid ca => !mid.isEmpty && !tid.isEmpty && isIsoDatetime ca
  | .token _ => true
  | .attachment a => attachmentWf a
  | .typing _ => true
  | .message_end mid _ _ ca => !mid.isEmpty && isIsoDatetime ca
  | .error c m _ => !c.isEmpty && !m.isEmpty

/-- Modelled from the spec: the SSE Encoder writes each payload as one
`data:` line terminated by a blank line (the `streamSSE`/`writeSSE` transport
of the server, which is library code outside this repository):
`data: <payload>\n\n`. -/
def encodeSseFrame (payload : JStr) : JStr :=
  js "data: " ++ payload ++ ['\n', '\n']

/-- First `\n\n` boundary: the part before it and the part after it
(`normalized.indexOf("\n\n")` plus the two slices). -/
def splitFrame : JStr → Option (JStr × JStr)
  | [] => none
  | [_] => none
  | c :: d :: rest =>
    if c = '\n' ∧ d = '\n' then some ([], rest)
    else (splitFrame (d :: rest)).map (fun p => (c :: p.1, p.2))

/-- The decoder's inner `while` loop: repeatedly normalize CRLF, find a
boundary, emit the frame and keep the normalized remainder; when no boundary
is found the (un-normalized) buffer is kept for the next read. -/
def drainLoop : Nat → JStr → List JStr × JStr
  | 0, buf => ([], buf)
  | f + 1, buf =>
    match splitFrame (normalizeCrlf buf) with
    | none => ([], buf)
    | some (frame, rest) =>
      let r := drainLoop f rest
      (frame :: r.1, r.2)

/-- `split("\n\n")` with fuel (each step removes at least two characters). -/
def splitBlocksAux : Nat → JStr → List JStr
  | 0, s => [s]
  | f + 1, s =>
    match splitFrame s with
    | none => [s]
    | some (a, b) => a :: splitBlocksAux f b

/-- `split("\n\n")` of a string. -/
def splitBlocks (s : JStr) : List JStr := splitBlocksAux s.length s

/-- One line of an SSE block: strip the `data:` prefix, trim, drop empties
(`line.startsWith("data:")`, `line.slice(5).trim()`, `item.length > 0`). -/
def sseDataLine (line : JStr) : Option JStr :=
  if (js "data:").isPrefixOf line then
    let v := trimJs (line.drop 5)
    if v = [] then none else some v
  else none

/-- The data payloads of one block (`block.split("\n")`, per-line handling). -/
def blockData (b : JStr) : List JStr := (splitNl b).filterMap sseDataLine

/-- `parseSsePayloadFromText` of the client: normalize CRLF, split into
blank-line blocks, collect every surviving `data:` payload. -/
def parseSsePayloadFromText (payload : JStr) : List JStr :=
  ((splitBlocks (normalizeCrlf payload)).map blockData).flatten

/-- `parseSseData` of the client: feed each read chunk into the buffer, drain
complete frames as they appear, and flush the remaining buffer through
`parseSsePayloadFromText` when the source ends. -/
def sseFeed : List JStr → JStr → List JStr
  | [], buf => parseSsePayloadFromText buf
  | c :: cs, buf =>
    let b := buf ++ c
    let r := drainLoop b.length b
    (r.1.map parseSsePayloadFromText).flatten ++ sseFeed cs r.2

/-- The client `chatStream` handling of one SSE payload: skip empties and
`[DONE]`; `JSON.parse` + `StreamEventSchema.parse`, with any failure caught
and re-emitted as a `token` event carrying the raw payload. -/
def clientDecodePayload (p : JStr) : List StreamEvent :=
  if p = [] ∨ p = js "[DONE]" then []
  else
    match jsonParse p with
    | some j =>
      match validateStreamEvent j with
      | some e => [e]
      | none => [.token p]
    | none => [.token p]

/-- The full client decode of a chat stream body delivered as chunks. -/
def chatStreamDecode (chunks : List JStr) : List StreamEvent :=
  ((sseFeed chunks []).map clientDecodePayload).flatten

/-- `parseSseEvents` (remote-HTTP adapter) handling of one SSE payload:
skip `[DONE]`; on a JSON parse, pass a valid `StreamEvent` through, else
synthesize a `token` event from a string `text` or `token` field, else emit
nothing; a payload that is not JSON at all becomes a raw `token` event. -/
def remoteDecodePayload (p : JStr) : List StreamEvent :=
  if p = js "[DONE]" then []
  else
    match jsonParse p with
    | some j =>
      match validateStreamEvent j with
      | some e => [e]
      | none =>
        match jget j (js "text") with
        | some (.str t) => [.token t]
        | _ =>
          match jget j (js "token") with
          | some (.str t) => [.token t]
          | _ => []
    | none => [.token p]

/-- Generic substring test (`String.prototype.includes`). -/
def containsSub (pat : JStr) : JStr → Bool
  | [] => pat.isEmpty
  | s@(_ :: rest) => pat.isPrefixOf s || containsSub pat rest

/-- The CLI placeholder literal. -/
def promptPat : JStr := js "{prompt}"

/-- `arg.includes("{prompt}")`. -/
def containsPrompt (s : JStr) : Bool := containsSub promptPat s

/-- ECMAScript `GetSubstitution` for a string-pattern `replaceAll` (zero
capture groups): in the replacement template, `$$` yields `$`, `$&` the
matched substring, `$` followed by a backquote (`\x60`) the portion of the
original string before the match, `$` followed by a quote (`\x27`) the
portion after it; any other `$` sequence is literal (with no captures,
`$1`..`$9` and `$<name>` stay as written). -/
def getSub (matched before after : JStr) : JStr → JStr
  | [] => []
  | [c] => [c]
  | c :: d :: rest =>
    if c = '$' then
      if d = '$' then '$' :: getSub matched before after rest
      else if d = '&' then matched ++ getSub matched before after rest
      else if d = '\x60' then before ++ getSub matched before after rest
      else if d = '\x27' then after ++ getSub matched before after rest
      else c :: d :: getSub matched before after rest
    else c :: getSub matched before after (d :: rest)

/-- Fuel-bounded scan of `arg.replaceAll("{prompt}", prompt)`: replace each
non-overlapping occurrence left to right, continuing after the replacement;
each occurrence is replaced by `GetSubstitution` of the replacement against
the original string (`orig`), with `pos` the index of the current suffix `s`
in `orig`. -/
def replaceAllAux (rep orig : JStr) : Nat → Nat → JStr → JStr
  | 0, _, s => s
  | _ + 1, _, [] => []
  | f + 1, pos, s =>
    if promptPat.isPrefixOf s then
      getSub promptPat (orig.take pos) (orig.drop (pos + 8)) rep ++
        replaceAllAux rep orig f (pos + 8) (s.drop 8)
    else
      match s with
      | [] => []
      | c :: rest => c :: replaceAllAux rep orig f (pos + 1) rest

/-- `arg.replaceAll("{prompt}", prompt)`. -/
def replacePrompt (prompt s : JStr) : JStr := replaceAllAux prompt s s.length 0 s

/-- Fuel-bounded split of a string on every `{prompt}` occurrence. -/
def splitOnPromptAux : Nat → JStr → List JStr
  | 0, s => [s]
  | _ + 1, [] => [[]]
  | f + 1, s =>
    if promptPat.isPrefixOf s then [] :: splitOnPromptAux f (s.drop 8)
    else
      match s with
      | [] => [[]]
      | c :: rest =>
        match splitOnPromptAux f rest with
        | [] => [[c]]
        | h :: t => (c :: h) :: t

/-- Split a string on every `{prompt}` occurrence. -/
def splitOnPrompt (s : JStr) : List JStr := splitOnPromptAux s.length s

/-- Join a list of strings with a separator between consecutive entries. -/
def joinWith (sep : JStr) : List JStr → JStr
  | [] => []
  | [x] => x
  | x :: rest => x ++ sep ++ joinWith sep rest

/-- `applyPromptToArgs` of the CLI-wrapped provider adapter: substitute the
placeholder in every argument; if none contained it and appending is
requested, push the prompt as one final argument. -/
def applyPromptToArgs (args : List JStr) (prompt : JStr)
    (appendPromptIfMissing : Bool) : List JStr :=
  let resolved := args.map (fun a => if containsPrompt a then replacePrompt prompt a else a)
  if appendPromptIfMissing && !(args.any containsPrompt) then resolved ++ [prompt]
  else resolved

/-- `applyPrompt` of the wrapped-command server (same logic, keyed on the
stdin flag directly). -/
def applyPrompt (args : List JStr) (prompt : JStr) (stdinMode : Bool) : List JStr :=
  let replaced := args.map (fun a => if containsPrompt a then replacePrompt prompt a else a)
  if !stdinMode && !(args.any containsPrompt) then replaced ++ [prompt]
  else replaced

/-- The prioritized key list of `extractTextFromUnknown`. -/
def preferredKeys : List JStr :=
  [js "text", js "message", js "output", js "response", js "result",
   js "completion", js "content"]

/-- Last-binding lookup in an extracted (key, text) list. -/
def plookup : List (JStr × JStr) → JStr → Option JStr
  | [], _ => none
  | (k, v) :: rest, key =>
    match plookup rest key with
    | some r => some r
    | none => if k = key then some v else none

/-- The preferred-key loop over precomputed extractions: first key whose
extraction is non-empty (an absent key contributes the empty string). -/
def firstPreferred (pairs : List (JStr × JStr)) : List JStr → Option JStr
  | [] => none
  | k :: rest =>
    match plookup pairs k with
    | some t => if !t.isEmpty then some t else firstPreferred pairs rest
    | none => firstPreferred pairs rest

mutual

/-- Total form of `extractTextFromUnknown`: a string is returned unchanged;
an array joins its members' non-empty extractions with newlines and trims;
an object returns the first non-empty extraction under the preferred-key
order, then the first non-empty extraction among all property values;
any other value yields the empty string. -/
def extractText : Json → JStr
  | .str s => s
  | .arr items => trimJs (joinNl ((extractItems items).filter (fun x => !x.isEmpty)))
  | .obj fields =>
    let pairs := extractFields fields
    match firstPreferred pairs preferredKeys with
    | some t => t
    | none => ((pairs.map Prod.snd).find? (fun x => !x.isEmpty)).getD []
  | _ => []

/-- Extractions of all items of an array, in order. -/
def extractItems : List Json → List JStr
  | [] => []
  | j :: rest => extractText j :: extractItems rest

/-- Extractions of all property values, keyed. -/
def extractFields : List (JStr × Json) → List (JStr × JStr)
  | [] => []
  | (k, v) :: rest => (k, extractText v) :: extractFields rest

end

/-- Map a fallible extractor over a list, failing if any element fails. -/
def mapOpt (g : Json → Option JStr) : List Json → Option (List JStr)
  | [] => some []
  | j :: rest =>
    match g j, mapOpt g rest with
    | some x, some xs => some (x :: xs)
    | _, _ => none

/-- The preferred-key loop of the source (`extract(obj[key])`, first
non-empty wins; an absent key contributes the empty string), for a fallible
extractor `g`. -/
def firstPreferredG (g : Json → Option JStr) (fields : List (JStr × Json)) :
    List JStr → Option (Option JStr)
  | [] => some none
  | k :: rest =>
    match (match jlookup fields k with | none => some ([] : JStr) | some v => g v) with
    | none => none
    | some t => if !t.isEmpty then some (some t) else firstPreferredG g fields rest

/-- `extractTextFromUnknown` as written: unbounded recursion with no depth
guard, modelled with explicit call-stack fuel (`none` = stack exhausted). -/
def extractTextF : Nat → Json → Option JStr
  | 0, _ => none
  | f + 1, j =>
    match j with
    | .str s => some s
    | .arr items =>
      (mapOpt (extractTextF f) items).map
        (fun xs => trimJs (joinNl (xs.filter (fun x => !x.isEmpty))))
    | .obj fields =>
      match firstPreferredG (extractTextF f) fields preferredKeys with
      | none => none
      | some (some t) => some t
      | some none =>
        match mapOpt (extractTextF f) (fields.map Prod.snd) with
        | none => none
        | some xs => some ((xs.find? (fun x => !x.isEmpty)).getD [])
    | _ => some []

mutual

/-- Call-stack depth needed by `extractTextF` on a value. -/
def needE : Json → Nat
  | .null => 1
  | .bool _ => 1
  | .num _ => 1
  | .str _ => 1
  | .arr items => 1 + needEI items
  | .obj fields => 1 + needEP fields

/-- Depth needed for every item of an array. -/
def needEI : List Json → Nat
  | [] => 0
  | j :: rest => max (needE j) (needEI rest)

/-- Depth needed for every property value of an object. -/
def needEP : List (JStr × Json) → Nat
  | [] => 0
  | (_, v) :: rest => max (needE v) (needEP rest)

end

/-- CLI output parse mode. -/
inductive CliParseMode where
  | text | json
deriving DecidableEq

/-- The newline-delimited-JSON branch of `normalizeCliOutput`: trim each
line, drop blanks, keep the trimmed extraction of every line that parses. -/
def ndjsonParts (t : JStr) : List JStr :=
  (((splitLinesCR t).map trimJs).filter (fun l => !l.isEmpty)).filterMap (fun line =>
    match jsonParse line with
    | some j =>
      let x := trimJs (extractText j)
      if x.isEmpty then none else some x
    | none => none)

/-- `normalizeCliOutput(stdout, stderr, parseMode)`. -/
def normalizeCliOutput (stdout stderr : JStr) (parse : CliParseMode) : JStr :=
  let t := trimJs stdout
  if parse = CliParseMode.json ∧ t ≠ [] then
    match jsonParse t with
    | some j =>
      let x := trimJs (extractText j)
      if x ≠ [] then x
      else if t ≠ [] then t else trimJs stderr
    | none =>
      let parts := ndjsonParts t
      if parts ≠ [] then joinNl parts
      else if t ≠ [] then t else trimJs stderr
  else if t ≠ [] then t else trimJs stderr

/-- Newline restoration of `chunkText`: every line but the last gets its
trailing newline back. -/
def withNl : List JStr → List JStr
  | [] => []
  | [l] => [l]
  | l :: rest => (l ++ ['\n']) :: withNl rest

/-- `chunkText` of the CLI-wrapped provider adapter. -/
def chunkText (text : JStr) : List JStr :=
  let trimmed := trimJs text
  if trimmed = [] then []
  else
    let lines := (splitLinesCR trimmed).filter (fun l => !l.isEmpty)
    if lines.length ≤ 1 then [trimmed]
    else withNl lines

/-- The token texts emitted by `runWrappedCommandStream` for a normalized
output: every non-empty line, each with a newline appended. -/
def wrappedStreamTokens (output : JStr) : List JStr :=
  if output = [] then []
  else ((splitLinesCR output).filter (fun l => !l.isEmpty)).map (fun l => l ++ ['\n'])

/-- The wrapped-command failure message on a nonzero exit
(`stderr.trim() || stdout.trim() || "exit code N"`). -/
def wrappedFailureMessage (stdout stderr : JStr) (code : Int) : JStr :=
  let s := trimJs stderr
  if s ≠ [] then s
  else
    let o := trimJs stdout
    if o ≠ [] then o else js "exit code " ++ intDec code

/-- The CLI adapter's `errorText` selection on a nonzero exit. -/
def cliAdapterErrorText (stdout stderr : JStr) (code : Int) : JStr :=
  let s := trimJs stderr
  if s ≠ [] then s
  else
    let o := trimJs stdout
    if o ≠ [] then o else js "exit code " ++ intDec code

/-- The message of the error the CLI adapter throws on a nonzero exit. -/
def cliAdapterFailureMessage (kind stdout stderr : JStr) (code : Int) : JStr :=
  kind ++ js " command failed: " ++ cliAdapterErrorText stdout stderr code

/-- Result carried by `runCliCommand`'s resolution. -/
structure CliResult where
  stdout : JStr
  stderr : JStr
  exitCode : Int
deriving DecidableEq

/-- The asynchronous signals a spawned child can deliver. -/
inductive CliSignal where
  | stdoutData (s : JStr)
  | stderrData (s : JStr)
  | timeout
  | childError (msg : JStr)
  | childClose (code : Option Int)
deriving DecidableEq

/-- The mutable state of `runCliCommand`'s promise executor. -/
structure LatchState where
  stdout : JStr
  stderr : JStr
  completed : Bool
  settled : Option (Except JStr CliResult)
  killed : Bool

/-- Initial executor state. -/
def initLatch : LatchState := ⟨[], [], false, none, false⟩

/-- The timeout rejection message of `runCliCommand`. -/
def timeoutMessage (timeoutMs : Nat) (command : JStr) : JStr :=
  js "CLI command timed out after " ++ natDec timeoutMs ++ js "ms: " ++ command

/-- One event-loop callback of `runCliCommand`: data callbacks accumulate;
each terminal callback checks the `completed` flag, and only the first one
settles the promise (`settled`), the timeout also killing the child. -/
def latchStep (timeoutMs : Nat) (command : JStr) (st : LatchState) :
    CliSignal → LatchState
  | .stdoutData s => { st with stdout := st.stdout ++ s }
  | .stderrData s => { st with stderr := st.stderr ++ s }
  | .timeout =>
    if st.completed then st
    else { st with
      completed := true
      killed := true
      settled := some (.error (timeoutMessage timeoutMs command)) }
  | .childError m =>
    if st.completed then st
    else { st with
      completed := true
      settled := some (.error m) }
  | .childClose code =>
    if st.completed then st
    else { st with
      completed := true
      settled := some (.ok ⟨st.stdout, st.stderr, code.getD 0⟩) }

/-- Run the executor over a sequence of delivered callbacks. -/
def runLatch (timeoutMs : Nat) (command : JStr) (sigs : List CliSignal) : LatchState :=
  sigs.foldl (latchStep timeoutMs command) initLatch

/-- Terminal signals: the three callbacks that can settle the promise. -/
def isTerminal : CliSignal → Bool
  | .timeout => true
  | .childError _ => true
  | .childClose _ => true
  | _ => false

/-- The synthetic error event of the streaming endpoint's catch handler. -/
def providerErrorEvent (msg : JStr) : StreamEvent :=
  .error (js "provider_error") msg false

/-- The `/v1/chat.stream` handler output: the frames written for a producing
sequence that delivered `evs` and then either completed (`failure = none`,
a final `[DONE]` frame) or threw (`failure = some msg`, one synthetic error
frame and no `[DONE]`). -/
def chatStreamHandlerFrames (evs : List StreamEvent) (failure : Option JStr) : List JStr :=
  match failure with
  | none =>
    evs.map (fun e => encodeSseFrame (jsonStringify (eventToJson e))) ++
      [encodeSseFrame (js "[DONE]")]
  | some msg =>
    evs.map (fun e => encodeSseFrame (jsonStringify (eventToJson e))) ++
      [encodeSseFrame (jsonStringify (eventToJson (providerErrorEvent msg)))]

/-- The id supply modelling `randomId()`: each call yields a fresh id
distinct from every other call's. -/
def freshId (n : Nat) : JStr := js "uuid-" ++ natDec n

/-- The client `chatStream` non-SSE JSON fallback envelope: it calls
`randomId()` once for `message_start` and again, separately, for
`message_end` (`n` is the id-supply counter; `now1`/`now2` the two
`new Date().toISOString()` reads). -/
def clientChatFallbackEvents (threadId text now1 now2 : JStr) (n : Nat) : List StreamEvent :=
  [.message_start (freshId n) threadId now1,
   .token text,
   .message_end (freshId (n + 1)) text .received now2]

/-- Simultaneous induction over the nested `Json` type, its item lists and its
member lists, obtained by strong induction on sizes. -/
theorem json_ind_all (PV : Json → Prop) (PI : List Json → Prop)
    (PM : List (JStr × Json) → Prop)
    (h0 : PV .null) (h1 : ∀ b, PV (.bool b)) (h2 : ∀ n, PV (.num n))
    (h3 : ∀ s, PV (.str s))
    (h4 : ∀ l, PI l → PV (.arr l)) (h5 : ∀ l, PM l → PV (.obj l))
    (h6 : PI []) (h7 : ∀ j l, PV j → PI l → PI (j :: l))
    (h8 : PM []) (h9 : ∀ k v l, PV v → PM l → PM ((k, v) :: l)) :
    (∀ j, PV j) ∧ (∀ l, PI l) ∧ (∀ l, PM l) := by
  have key : ∀ n : Nat,
      (∀ j : Json, sizeOf j ≤ n → PV j) ∧
      (∀ l : List Json, sizeOf l ≤ n → PI l) ∧
      (∀ l : List (JStr × Json), sizeOf l ≤ n → PM l) := by
    intro n
    induction n with
    | zero =>
      refine ⟨?_, ?_, ?_⟩
      · intro j hj; exfalso; cases j <;> simp at hj
      · intro l hl; exfalso; cases l <;> simp at hl
      · intro l hl; exfalso; cases l <;> simp at hl
    | succ n ih =>
      obtain ⟨ihV, ihI, ihM⟩ := ih
      refine ⟨?_, ?_, ?_⟩
      · intro j hj
        cases j with
        | null => exact h0
        | bool b => exact h1 b
        | num k => exact h2 k
        | str s => exact h3 s
        | arr l => exact h4 l (ihI l (by simp at hj; omega))
        | obj l => exact h5 l (ihM l (by simp at hj; omega))
      · intro l hl
        cases l with
        | nil => exact h6
        | cons j t =>
          exact h7 j t (ihV j (by simp at hl; omega)) (ihI t (by simp at hl; omega))
      · intro l hl
        cases l with
        | nil => exact h8
        | cons p t =>
          obtain ⟨k, v⟩ := p
          refine h9 k v t ?_ ?_
          · exact ihV v (by simp at hl; omega)
          · exact ihM t (by simp at hl; omega)
  exact ⟨fun j => (key (sizeOf j)).1 j le_rfl,
         fun l => (key (sizeOf l)).2.1 l le_rfl,
         fun l => (key (sizeOf l)).2.2 l le_rfl⟩

theorem skipWs_cons_not_ws {c : Char} (l : List Char) (h : isWsC c = false) :
    skipWs (c :: l) = c :: l := by
  simp [skipWs, List.dropWhile_cons, h]

theorem natDecAux_eq : ∀ f n, n < f → natDecAux f n = natDec n := by
  intro f
  induction f using Nat.strong_induction_on with
  | _ f ih =>
    intro n hn
    match f, hn with
    | f' + 1, hn =>
      show natDecAux (f' + 1) n = natDecAux (n + 1) n
      simp only [natDecAux]
      by_cases h : n < 10
      · simp [h]
      · have e1 : natDecAux f' (n / 10) = natDec (n / 10) :=
          ih f' (by omega) (n / 10) (by omega)
        have e2 : natDecAux n (n / 10) = natDec (n / 10) :=
          ih n (by omega) (n / 10) (by omega)
        simp [h, e1, e2]

theorem natDec_eq (n : Nat) :
    natDec n = if n < 10 then [Nat.digitChar n]
      else natDec (n / 10) ++ [Nat.digitChar (n % 10)] := by
  show natDecAux (n + 1) n = _
  simp only [natDecAux]
  by_cases h : n < 10
  · simp [h]
  · simp [h, natDecAux_eq n (n / 10) (by omega)]

theorem natDec_ne_nil (n : Nat) : natDec n ≠ [] := by
  rw [natDec_eq]
  split <;> simp

theorem digitChar_is_digit : ∀ d, d < 10 → isDigitC (Nat.digitChar d) = true := by decide

theorem digitChar_val : ∀ d, d < 10 → (Nat.digitChar d).toNat - '0'.toNat = d := by decide

theorem natDec_all_digits (n : Nat) : ∀ c ∈ natDec n, isDigitC c = true := by
  induction n using Nat.strong_induction_on with
  | _ n ih =>
    rw [natDec_eq]
    split
    next h =>
      intro c hc
      simp at hc
      subst hc
      exact digitChar_is_digit n h
    next h =>
      intro c hc
      rcases List.mem_append.1 hc with h1 | h2
      · exact ih (n / 10) (Nat.div_lt_self (by omega) (by omega)) c h1
      · simp at h2
        subst h2
        exact digitChar_is_digit (n % 10) (Nat.mod_lt _ (by omega))

theorem digitsVal_append_one (a : List Char) (d : Char) :
    digitsVal (a ++ [d]) = 10 * digitsVal a + (d.toNat - '0'.toNat) := by
  simp [digitsVal, List.foldl_append]

theorem natDec_val (n : Nat) : digitsVal (natDec n) = n := by
  induction n using Nat.strong_induction_on with
  | _ n ih =>
    rw [natDec_eq]
    split
    next h =>
      simp only [digitsVal, List.foldl_cons, List.foldl_nil]
      simpa using digitChar_val n h
    next h =>
      rw [digitsVal_append_one, ih (n / 10) (Nat.div_lt_self (by omega) (by omega)),
        digitChar_val (n % 10) (Nat.mod_lt _ (by omega))]
      omega

theorem spanDigits_split (ds rest : List Char) (hds : ∀ c ∈ ds, isDigitC c = true)
    (hrest : ∀ c, rest.head? = some c → isDigitC c = false) :
    spanDigits (ds ++ rest) = (ds, rest) := by
  induction ds with
  | nil =>
    simp only [List.nil_append]
    cases rest with
    | nil => rfl
    | cons c t =>
      have := hrest c rfl
      simp [spanDigits, this]
  | cons c t ih =>
    have hc := hds c (by simp)
    have ht : ∀ x ∈ t, isDigitC x = true := fun x hx => hds x (by simp [hx])
    simp [spanDigits, hc, ih ht]

theorem hexVal_hexDig : ∀ m, m < 16 → hexVal (hexDig m) = some m := by decide

theorem digit_not_ws {c : Char} (h : isDigitC c = true) : isWsC c = false := by
  simp only [isDigitC, Bool.and_eq_true, decide_eq_true_eq] at h
  simp only [isWsC, Bool.or_eq_false_iff, decide_eq_false_iff_not]
  refine ⟨⟨⟨?_, ?_⟩, ?_⟩, ?_⟩ <;> rintro rfl <;> exact absurd h (by decide)

theorem natDec_head (n : Nat) : ∃ d t, natDec n = d :: t ∧ isDigitC d = true := by
  cases h : natDec n with
  | nil => exact absurd h (natDec_ne_nil n)
  | cons d t =>
    exact ⟨d, t, rfl, natDec_all_digits n d (by rw [h]; simp)⟩

theorem parseStrBody_esc (s : JStr) : ∀ (rest : List Char) (f : Nat), s.length < f →
    parseStrBody f (escList s ++ ('"' :: rest)) = some (s, rest) := by
  induction s with
  | nil =>
    intro rest f hf
    match f, hf with
    | f + 1, _ => simp [escList, parseStrBody]
  | cons c cs ih =>
    intro rest f hf
    match f, hf with
    | f + 1, hf =>
      have hcs : cs.length < f := by simp at hf; omega
      have ihr := ih rest f hcs
      simp only [escList, List.append_assoc]
      by_cases h1 : c = '"'
      · subst h1; simp [escChar, parseStrBody, unescape, ihr]
      · by_cases h2 : c = '\\'
        · subst h2; simp [escChar, parseStrBody, unescape, ihr]
        · by_cases h3 : c = '\n'
          · subst h3; simp [escChar, parseStrBody, unescape, ihr]
          · by_cases h4 : c = '\r'
            · subst h4; simp [escChar, parseStrBody, unescape, ihr]
            · by_cases h5 : c = '\t'
              · subst h5; simp [escChar, parseStrBody, unescape, ihr]
              · by_cases h6 : c = '\x08'
                · subst h6; simp [escChar, parseStrBody, unescape, ihr]
                · by_cases h7 : c = '\x0c'
                  · subst h7; simp [escChar, parseStrBody, unescape, ihr]
                  · by_cases h8 : c.toNat < 32
                    · have hd1 : hexVal (hexDig (c.toNat / 16)) = some (c.toNat / 16) :=
                        hexVal_hexDig _ (by omega)
                      have hd0 : hexVal (hexDig (c.toNat % 16)) = some (c.toNat % 16) :=
                        hexVal_hexDig _ (by omega)
                      have hval : (0 : Nat) * 4096 + 0 * 256 + c.toNat / 16 * 16 + c.toNat % 16 =
                          c.toNat := by omega
                      have hval' : c.toNat / 16 * 16 + c.toNat % 16 = c.toNat := by omega
                      have h00 : hexVal '0' = some 0 := rfl
                      simp only [escChar, if_neg h1, if_neg h2, if_neg h3, if_neg h4, if_neg h5,
                        if_neg h6, if_neg h7, if_pos h8]
                      simp [parseStrBody, readHex4, h00, hd1, hd0, hval, hval',
                        Char.ofNat_toNat, ihr]
                    · simp [escChar, h1, h2, h3, h4, h5, h6, h7, h8, parseStrBody, ihr]

theorem isPrefixOf_append_self (l r : List Char) : l.isPrefixOf (l ++ r) = true := by
  induction l with
  | nil => simp [List.isPrefixOf]
  | cons c t ih => simp [List.isPrefixOf, ih]

theorem digit_ne_special {c : Char} (h : isDigitC c = true) :
    c ≠ '\x7b' ∧ c ≠ '[' ∧ c ≠ '"' ∧ c ≠ 't' ∧ c ≠ 'f' ∧ c ≠ 'n' ∧ c ≠ '-' ∧
    c ≠ ']' ∧ c ≠ '\x7d' ∧ c ≠ ',' ∧ c ≠ ':' := by
  simp only [isDigitC, Bool.and_eq_true, decide_eq_true_eq] at h
  refine ⟨?_, ?_, ?_, ?_, ?_, ?_, ?_, ?_, ?_, ?_, ?_⟩ <;> rintro rfl <;>
    exact absurd h (by decide)

theorem escChar_ne_nil (c : Char) : escChar c ≠ [] := by
  unfold escChar
  split_ifs <;> simp

theorem escList_length_ge (s : JStr) : s.length ≤ (escList s).length := by
  induction s with
  | nil => simp [escList]
  | cons c t ih =>
    have h1 : 1 ≤ (escChar c).length :=
      List.length_pos.2 (escChar_ne_nil c)
    simp only [escList, List.length_append, List.length_cons]
    omega

theorem stringify_head (j : Json) : ∃ c t, jsonStringify j = c :: t ∧ isWsC c = false ∧
    c ≠ ']' ∧ c ≠ '\x7d' ∧ c ≠ ',' ∧ c ≠ ':' := by
  cases j with
  | null => exact ⟨'n', _, rfl, by decide, by decide, by decide, by decide, by decide⟩
  | bool b =>
    cases b with
    | true => exact ⟨'t', _, rfl, by decide, by decide, by decide, by decide, by decide⟩
    | false => exact ⟨'f', _, rfl, by decide, by decide, by decide, by decide, by decide⟩
  | num n =>
    by_cases h : n < 0
    · refine ⟨'-', natDec n.natAbs, ?_, by decide, by decide, by decide, by decide, by decide⟩
      simp [jsonStringify, intDec, h]
    · obtain ⟨d, t, hd, hdig⟩ := natDec_head n.natAbs
      obtain ⟨n1, n2, n3, n4, n5, n6, n7, n8, n9, n10, n11⟩ := digit_ne_special hdig
      refine ⟨d, t, ?_, digit_not_ws hdig, n8, n9, n10, n11⟩
      simp [jsonStringify, intDec, h, hd]
  | str s => exact ⟨'"', _, rfl, by decide, by decide, by decide, by decide, by decide⟩
  | arr items =>
    cases items with
    | nil => exact ⟨'[', _, rfl, by decide, by decide, by decide, by decide, by decide⟩
    | cons x xs => exact ⟨'[', _, rfl, by decide, by decide, by decide, by decide, by decide⟩
  | obj fields =>
    cases fields with
    | nil => exact ⟨'\x7b', _, rfl, by decide, by decide, by decide, by decide, by decide⟩
    | cons x xs => exact ⟨'\x7b', _, rfl, by decide, by decide, by decide, by decide, by decide⟩

theorem skipWs_stringify (j : Json) (rest : List Char) :
    skipWs (jsonStringify j ++ rest) = jsonStringify j ++ rest := by
  obtain ⟨c, t, hct, hws, -⟩ := stringify_head j
  rw [hct, List.cons_append]
  exact skipWs_cons_not_ws _ hws

theorem needV_pos (j : Json) : 1 ≤ needV j := by
  cases j with
  | arr items => cases items <;> simp [needV]
  | obj fields => cases fields <;> simp [needV]
  | _ => simp [needV]

theorem headNotDigit_cons (c : Char) (x : List Char) (h : isDigitC c = false) :
    headNotDigit (c :: x) := by
  intro d hd
  simp at hd
  subst hd
  exact h

theorem needI_pos (l : List Json) : 1 ≤ needI l := by
  cases l with
  | nil => simp [needI]
  | cons x xs => cases xs <;> simp [needI]

theorem needM_pos (l : List (JStr × Json)) : 1 ≤ needM l := by
  cases l with
  | nil => simp [needM]
  | cons p xs =>
    obtain ⟨k, v⟩ := p
    cases xs <;> simp [needM]

theorem stringifyItems_cons_head (x : Json) (xs : List Json) (r : List Char) :
    ∃ c tail, stringifyItems (x :: xs) ++ r = c :: tail ∧ isWsC c = false ∧
      c ≠ ']' ∧ c ≠ '\x7d' := by
  obtain ⟨c, t0, hx, hws, hne1, hne2, -, -⟩ := stringify_head x
  cases xs with
  | nil => exact ⟨c, t0 ++ r, by simp [stringifyItems, hx], hws, hne1, hne2⟩
  | cons y ys =>
    exact ⟨c, t0 ++ (',' :: (stringifyItems (y :: ys) ++ r)),
      by simp [stringifyItems, hx], hws, hne1, hne2⟩

theorem stringifyFields_cons_head (p : JStr × Json) (xs : List (JStr × Json)) (r : List Char) :
    ∃ tail, stringifyFields (p :: xs) ++ r = '"' :: tail := by
  obtain ⟨k, v⟩ := p
  cases xs with
  | nil => exact ⟨(escList k ++ ['"']) ++ (':' :: (jsonStringify v ++ r)), by
      simp [stringifyFields, strLit]⟩
  | cons q qs =>
    exact ⟨(escList k ++ ['"']) ++
      (':' :: (jsonStringify v ++ (',' :: (stringifyFields (q :: qs) ++ r)))), by
      simp [stringifyFields, strLit]⟩

theorem parse_stringify_all : ∀ f : Nat,
    (∀ (j : Json) (rest : List Char), needV j ≤ f →
      (∀ n : Int, j = Json.num n → headNotDigit rest) →
      parseValue f (jsonStringify j ++ rest) = some (j, rest)) ∧
    (∀ (l : List Json) (rest : List Char), l ≠ [] → needI l ≤ f →
      parseItems f (stringifyItems l ++ (']' :: rest)) = some (l, rest)) ∧
    (∀ (l : List (JStr × Json)) (rest : List Char), l ≠ [] → needM l ≤ f →
      parseMembers f (stringifyFields l ++ ('\x7d' :: rest)) = some (l, rest)) := by
  intro f
  induction f with
  | zero =>
    refine ⟨?_, ?_, ?_⟩
    · intro j rest hneed _
      exact absurd hneed (by have := needV_pos j; omega)
    · intro l rest _ hneed
      exact absurd hneed (by have := needI_pos l; omega)
    · intro l rest _ hneed
      exact absurd hneed (by have := needM_pos l; omega)
  | succ f ih =>
    obtain ⟨ihV, ihI, ihM⟩ := ih
    refine ⟨?_, ?_, ?_⟩
    · intro j rest hneed hnum
      cases j with
      | null =>
        simp [parseValue, jsonStringify, skipWs_cons_not_ws, isWsC, List.isPrefixOf]
      | bool b =>
        cases b <;>
          simp [parseValue, jsonStringify, skipWs_cons_not_ws, isWsC, List.isPrefixOf]
      | num n =>
        have hrest : headNotDigit rest := hnum n rfl
        by_cases hneg : n < 0
        · have hspan : spanDigits (natDec n.natAbs ++ rest) = (natDec n.natAbs, rest) :=
            spanDigits_split _ _ (natDec_all_digits _) hrest
          have hv : (-(digitsVal (natDec n.natAbs) : Int)) = n := by
            rw [natDec_val]; omega
          simp [parseValue, jsonStringify, intDec, hneg, skipWs_cons_not_ws, isWsC, hspan,
            natDec_ne_nil, hv]
        · obtain ⟨d, t, hd, hdig⟩ := natDec_head n.natAbs
          obtain ⟨n1, n2, n3, n4, n5, n6, n7, -, -, -, -⟩ := digit_ne_special hdig
          have hspan : spanDigits (natDec n.natAbs ++ rest) = (natDec n.natAbs, rest) :=
            spanDigits_split _ _ (natDec_all_digits _) hrest
          have hv : ((digitsVal (natDec n.natAbs) : Int)) = n := by
            rw [natDec_val]; omega
          rw [hd, List.cons_append] at hspan
          rw [hd] at hv
          rw [show jsonStringify (Json.num n) = natDec n.natAbs by
            simp [jsonStringify, intDec, hneg], hd, List.cons_append]
          have hskip := skipWs_cons_not_ws (t ++ rest) (digit_not_ws hdig)
          simp only [parseValue, hskip]
          simp [n1, n2, n3, n4, n5, n6, n7, hdig, hspan, hv]
      | str s =>
        have hlen : s.length < (escList s ++ ('"' :: rest)).length + 1 := by
          have := escList_length_ge s
          simp [List.length_append]
          omega
        have hesc := parseStrBody_esc s rest _ hlen
        simp [parseValue, jsonStringify, strLit, skipWs_cons_not_ws, isWsC]
        simpa using hesc
      | arr items =>
        cases items with
        | nil =>
          simp [parseValue, jsonStringify, stringifyItems, skipWs_cons_not_ws, isWsC]
        | cons x xs =>
          obtain ⟨c, tail, hct, hws, hne1, hne2⟩ :=
            stringifyItems_cons_head x xs (']' :: rest)
          have hneedI : needI (x :: xs) ≤ f := by
            simp [needV] at hneed; omega
          have hitems := ihI (x :: xs) rest (by simp) hneedI
          simp only [jsonStringify, List.cons_append, List.append_assoc, List.nil_append]
          have hskip : skipWs (stringifyItems (x :: xs) ++ (']' :: rest)) =
              stringifyItems (x :: xs) ++ (']' :: rest) := by
            rw [hct]; exact skipWs_cons_not_ws _ hws
          simp only [parseValue, skipWs_cons_not_ws _ (by decide : isWsC '[' = false), hskip]
          rw [hct]
          simp [hne1, hne2, ← hct, hitems]
      | obj fields =>
        cases fields with
        | nil =>
          simp [parseValue, jsonStringify, stringifyFields, skipWs_cons_not_ws, isWsC]
        | cons p ps =>
          obtain ⟨tail, hct⟩ := stringifyFields_cons_head p ps ('\x7d' :: rest)
          have hneedM : needM (p :: ps) ≤ f := by
            simp [needV] at hneed; omega
          have hmems := ihM (p :: ps) rest (by simp) hneedM
          simp only [jsonStringify, List.cons_append, List.append_assoc, List.nil_append]
          have hskip : skipWs (stringifyFields (p :: ps) ++ ('\x7d' :: rest)) =
              stringifyFields (p :: ps) ++ ('\x7d' :: rest) := by
            rw [hct]; exact skipWs_cons_not_ws _ (by decide)
          simp only [parseValue, skipWs_cons_not_ws _ (by decide : isWsC '\x7b' = false), hskip]
          rw [hct]
          simp [← hct, hmems]
    · intro l rest hl hneed
      cases l with
      | nil => exact absurd rfl hl
      | cons x xs =>
        cases xs with
        | nil =>
          have hx := ihV x (']' :: rest) (by simp [needI] at hneed; omega)
            (fun n _ => headNotDigit_cons ']' rest (by decide))
          simp only [stringifyItems]
          simp [parseItems, hx, skipWs_cons_not_ws, isWsC]
        | cons y ys =>
          have hneedx : needV x ≤ f := by
            simp only [needI] at hneed
            have := Nat.le_max_left (needV x) (needI (y :: ys))
            omega
          have hneedys : needI (y :: ys) ≤ f := by
            simp only [needI] at hneed
            have := Nat.le_max_right (needV x) (needI (y :: ys))
            omega
          have hx := ihV x (',' :: (stringifyItems (y :: ys) ++ (']' :: rest))) hneedx
            (fun n _ => headNotDigit_cons ',' _ (by decide))
          have hrest := ihI (y :: ys) rest (by simp) hneedys
          obtain ⟨c, tail, hct, hws, -, -⟩ := stringifyItems_cons_head y ys (']' :: rest)
          simp only [stringifyItems, List.cons_append, List.append_assoc]
          simp only [parseItems]
          rw [hx]
          simp only [skipWs_cons_not_ws _ (by decide : isWsC ',' = false)]
          rw [hct, skipWs_cons_not_ws _ hws, ← hct]
          simp [hrest]
    · intro l rest hl hneed
      cases l with
      | nil => exact absurd rfl hl
      | cons p ps =>
        obtain ⟨k, v⟩ := p
        cases ps with
        | nil =>
          have hklen : k.length < (escList k ++ ('"' :: (':' ::
              (jsonStringify v ++ ('\x7d' :: rest))))).length + 1 := by
            have := escList_length_ge k
            simp [List.length_append]
            omega
          have hkey := parseStrBody_esc k (':' :: (jsonStringify v ++ ('\x7d' :: rest))) _ hklen
          simp only [List.length_append, List.length_cons] at hkey
          have hv := ihV v ('\x7d' :: rest) (by simp [needM] at hneed; omega)
            (fun n _ => headNotDigit_cons '\x7d' rest (by decide))
          simp only [stringifyFields, strLit, List.cons_append, List.append_assoc]
          simp [parseMembers, hkey, skipWs_cons_not_ws, isWsC, hv]
        | cons q qs =>
          have hneedv : needV v ≤ f := by
            simp only [needM] at hneed
            have := Nat.le_max_left (needV v) (needM (q :: qs))
            omega
          have hneedqs : needM (q :: qs) ≤ f := by
            simp only [needM] at hneed
            have := Nat.le_max_right (needV v) (needM (q :: qs))
            omega
          have hklen : k.length < (escList k ++ ('"' :: (':' ::
              (jsonStringify v ++ (',' :: (stringifyFields (q :: qs) ++
                ('\x7d' :: rest))))))).length + 1 := by
            have := escList_length_ge k
            simp [List.length_append]
            omega
          have hkey := parseStrBody_esc k (':' :: (jsonStringify v ++ (',' ::
            (stringifyFields (q :: qs) ++ ('\x7d' :: rest))))) _ hklen
          simp only [List.length_append, List.length_cons] at hkey
          have hv := ihV v (',' :: (stringifyFields (q :: qs) ++ ('\x7d' :: rest))) hneedv
            (fun n _ => headNotDigit_cons ',' _ (by decide))
          have hqs := ihM (q :: qs) rest (by simp) hneedqs
          obtain ⟨tail, hct⟩ := stringifyFields_cons_head q qs ('\x7d' :: rest)
          have hskip2 : skipWs (stringifyFields (q :: qs) ++ ('\x7d' :: rest)) =
              stringifyFields (q :: qs) ++ ('\x7d' :: rest) := by
            rw [hct]
            exact skipWs_cons_not_ws _ (by decide)
          simp only [stringifyFields, strLit, List.cons_append, List.append_assoc]
          simp [parseMembers, hkey, skipWs_cons_not_ws, isWsC, hv, hskip2, hqs]

theorem needV_le_len :
    (∀ j : Json, needV j ≤ (jsonStringify j).length) ∧
    (∀ l : List Json, l ≠ [] → needI l ≤ (stringifyItems l).length + 1) ∧
    (∀ l : List (JStr × Json), l ≠ [] → needM l ≤ (stringifyFields l).length + 1) := by
  refine json_ind_all _ _ _ ?_ ?_ ?_ ?_ ?_ ?_ ?_ ?_ ?_ ?_
  · simp [needV, jsonStringify]
  · intro b; cases b <;> simp [needV, jsonStringify]
  · intro n
    have h1 : natDec n.natAbs ≠ [] := natDec_ne_nil _
    have h2 : 1 ≤ (natDec n.natAbs).length := List.length_pos.2 h1
    simp only [needV, jsonStringify, intDec]
    split
    · simp
    · simp
      omega
  · intro s; simp [needV, jsonStringify, strLit]
  · intro l hl
    cases l with
    | nil => simp [needV, jsonStringify, stringifyItems]
    | cons x xs =>
      have := hl (by simp)
      simp only [needV, jsonStringify, List.length_cons, List.length_append]
      simp at this ⊢
      omega
  · intro l hl
    cases l with
    | nil => simp [needV, jsonStringify, stringifyFields]
    | cons p ps =>
      have := hl (by simp)
      simp only [needV, jsonStringify, List.length_cons, List.length_append]
      simp at this ⊢
      omega
  · intro h; simp at h
  · intro j l hj hl _
    cases l with
    | nil =>
      simp only [needI, stringifyItems]
      omega
    | cons y ys =>
      have h2 := hl (by simp)
      have h3 : 1 ≤ (jsonStringify j).length := by
        obtain ⟨c, t, hct, -⟩ := stringify_head j
        simp [hct]
      simp only [needI, stringifyItems, List.length_append, List.length_cons]
      have hm := Nat.max_le.2 ⟨le_refl (needV j), le_refl (needV j)⟩
      have : max (needV j) (needI (y :: ys)) ≤
          max ((jsonStringify j).length) ((stringifyItems (y :: ys)).length + 1) :=
        max_le_max hj h2
      have h4 := Nat.max_le.1 this
      omega
  · intro h; simp at h
  · intro k v l hv hl _
    cases l with
    | nil =>
      simp only [needM, stringifyFields, strLit, List.length_append, List.length_cons]
      omega
    | cons q qs =>
      have h2 := hl (by simp)
      simp only [needM, stringifyFields, strLit, List.length_append, List.length_cons]
      have : max (needV v) (needM (q :: qs)) ≤
          max ((jsonStringify v).length) ((stringifyFields (q :: qs)).length + 1) :=
        max_le_max hv h2
      have h4 := Nat.max_le.1 this
      omega

theorem upsertField_not_mem (acc : List (JStr × Json)) (k : JStr) (v : Json)
    (h : ∀ p ∈ acc, p.1 ≠ k) : upsertField acc k v = acc ++ [(k, v)] := by
  induction acc with
  | nil => rfl
  | cons p t ih =>
    obtain ⟨k0, v0⟩ := p
    have hne : k0 ≠ k := h (k0, v0) (by simp)
    simp only [upsertField, if_neg hne, List.cons_append]
    rw [ih (fun q hq => h q (by simp [hq]))]

theorem foldl_upsert_eq (l : List (JStr × Json)) : ∀ acc : List (JStr × Json),
    ((acc ++ l).map Prod.fst).Nodup →
    l.foldl (fun a p => upsertField a p.1 p.2) acc = acc ++ l := by
  induction l with
  | nil => intro acc _; simp
  | cons p t ih =>
    intro acc hnd
    have hnotin : ∀ q ∈ acc, q.1 ≠ p.1 := by
      intro q hq heq
      rw [List.map_append, List.nodup_append] at hnd
      have hdisj := hnd.2.2
      have h1 : q.1 ∈ acc.map Prod.fst := List.mem_map_of_mem _ hq
      have h2 : q.1 ∈ (p :: t).map Prod.fst := by
        rw [heq]
        exact List.mem_map_of_mem _ (List.mem_cons_self _ _)
      exact hdisj h1 h2
    simp only [List.foldl_cons]
    rw [upsertField_not_mem acc p.1 p.2 hnotin]
    have hnd2 : (((acc ++ [p]) ++ t).map Prod.fst).Nodup := by
      simp only [List.append_assoc, List.singleton_append]
      exact hnd
    rw [ih (acc ++ [p]) hnd2]
    simp

theorem dedupFields_of_nodup (l : List (JStr × Json)) (h : (l.map Prod.fst).Nodup) :
    dedupFields l = l := by
  have := foldl_upsert_eq l [] (by simpa using h)
  simpa [dedupFields] using this

theorem dedupJson_id :
    (∀ j : Json, keysOkV j → dedupJson j = j) ∧
    (∀ l : List Json, keysOkI l → dedupItems l = l) ∧
    (∀ l : List (JStr × Json), keysOkM l → dedupMembers l = l) := by
  refine json_ind_all _ _ _ ?_ ?_ ?_ ?_ ?_ ?_ ?_ ?_ ?_ ?_
  · intro _; rfl
  · intro b _; rfl
  · intro n _; rfl
  · intro s _; rfl
  · intro l hl hk
    simp only [dedupJson]
    rw [hl hk]
  · intro l hl hk
    obtain ⟨hnd, hm⟩ := hk
    simp only [dedupJson]
    rw [hl hm, dedupFields_of_nodup l hnd]
  · intro _; rfl
  · intro j l hj hl hk
    obtain ⟨h1, h2⟩ := hk
    simp only [dedupItems]
    rw [hj h1, hl h2]
  · intro _; rfl
  · intro k v l hv hl hk
    obtain ⟨h1, h2⟩ := hk
    simp only [dedupMembers]
    rw [hv h1, hl h2]

theorem jsonParse_stringify (j : Json) (h : keysOkV j) :
    jsonParse (jsonStringify j) = some j := by
  have hb : needV j ≤ (jsonStringify j).length + 1 := by
    have := needV_le_len.1 j
    omega
  have hp := (parse_stringify_all ((jsonStringify j).length + 1)).1 j [] hb
    (by intro n _ c hc; simp at hc)
  rw [List.append_nil] at hp
  simp [jsonParse, hp, skipWs, dedupJson_id.1 j h]

theorem natCast_lt_zero_false (n : Nat) : ((n : Int) < 0) = False := by simp

set_option maxHeartbeats 2000000 in
theorem validateAttachment_toJson (a : AttachmentV) (h : attachmentWf a = true) :
    validateAttachment (attachmentToJson a) = some a := by
  obtain ⟨idv, kind, name, mt, sb, uri, db⟩ := a
  cases idv <;> cases mt <;> cases sb <;> cases uri <;> cases db <;> cases kind <;>
    (simp [attachmentWf, optNonempty, List.isEmpty_iff] at h ;
     simp +decide [validateAttachment, attachmentToJson, optField, jget, jlookup,
       getStr, getStr1, getOptStr1, getOptSize, kindToStr, natCast_lt_zero_false, h])

set_option maxHeartbeats 1000000 in
theorem validate_eventToJson (e : StreamEvent) (h : eventWf e = true) :
    validateStreamEvent (eventToJson e) = some e := by
  cases e with
  | message_start mid tid ca =>
    simp only [eventWf, Bool.and_eq_true, Bool.not_eq_true', List.isEmpty_eq_false] at h
    obtain ⟨⟨h1, h2⟩, h3⟩ := h
    simp +decide [eventToJson, validateStreamEvent, jget, jlookup, getStr, getStr1,
      getDatetime, h1, h2, h3]
  | token t =>
    simp +decide [eventToJson, validateStreamEvent, jget, jlookup, getStr]
  | attachment a =>
    have hv := validateAttachment_toJson a (by simpa [eventWf] using h)
    simp +decide [eventToJson, validateStreamEvent, jget, jlookup, hv]
  | typing b =>
    simp +decide [eventToJson, validateStreamEvent, jget, jlookup, getBool]
  | message_end mid txt st ca =>
    simp only [eventWf, Bool.and_eq_true, Bool.not_eq_true', List.isEmpty_eq_false] at h
    obtain ⟨h1, h3⟩ := h
    cases st <;>
      simp +decide [eventToJson, validateStreamEvent, jget, jlookup, getStr, getStr1,
        getDatetime, statusToStr, statusOfStr, h1, h3]
  | error c m r =>
    simp only [eventWf, Bool.and_eq_true, Bool.not_eq_true', List.isEmpty_eq_false] at h
    obtain ⟨h1, h2⟩ := h
    simp +decide [eventToJson, validateStreamEvent, jget, jlookup, getStr, getStr1,
      getBoolDefFalse, h1, h2]

set_option maxHeartbeats 1000000 in
theorem eventToJson_keysOk (e : StreamEvent) : keysOkV (eventToJson e) := by
  cases e with
  | message_start mid tid ca =>
    simp +decide [eventToJson, keysOkV, keysOkM]
  | token t => simp +decide [eventToJson, keysOkV, keysOkM]
  | attachment a =>
    obtain ⟨idv, kind, name, mt, sb, uri, db⟩ := a
    cases idv <;> cases mt <;> cases sb <;> cases uri <;> cases db <;>
      simp +decide [eventToJson, attachmentToJson, optField, keysOkV, keysOkM]
  | typing b => simp +decide [eventToJson, keysOkV, keysOkM]
  | message_end mid txt st ca => simp +decide [eventToJson, keysOkV, keysOkM]
  | error c m r => simp +decide [eventToJson, keysOkV, keysOkM]

theorem jsonParse_eventToJson (e : StreamEvent) :
    jsonParse (jsonStringify (eventToJson e)) = some (eventToJson e) :=
  jsonParse_stringify _ (eventToJson_keysOk e)

theorem digit_not_nl {c : Char} (h : isDigitC c = true) : c ≠ '\n' ∧ c ≠ '\r' := by
  simp only [isDigitC, Bool.and_eq_true, decide_eq_true_eq] at h
  constructor <;> rintro rfl <;> exact absurd h (by decide)

theorem hexDig_not_nl : ∀ m, m < 16 → hexDig m ≠ '\n' ∧ hexDig m ≠ '\r' := by decide

theorem escChar_no_nl (c : Char) : '\n' ∉ escChar c ∧ '\r' ∉ escChar c := by
  by_cases h1 : c = '"'
  · subst h1; simp [escChar]
  · by_cases h2 : c = '\\'
    · subst h2; simp [escChar]
    · by_cases h3 : c = '\n'
      · subst h3; simp [escChar]
      · by_cases h4 : c = '\r'
        · subst h4; simp [escChar]
        · by_cases h5 : c = '\t'
          · subst h5; simp [escChar]
          · by_cases h6 : c = '\x08'
            · subst h6; simp [escChar]
            · by_cases h7 : c = '\x0c'
              · subst h7; simp [escChar]
              · by_cases h8 : c.toNat < 32
                · have d1 := hexDig_not_nl (c.toNat / 16) (by omega)
                  have d0 := hexDig_not_nl (c.toNat % 16) (by omega)
                  simp only [escChar, if_neg h1, if_neg h2, if_neg h3, if_neg h4, if_neg h5,
                    if_neg h6, if_neg h7, if_pos h8]
                  constructor <;> intro hmem <;> simp +decide at hmem <;>
                    rcases hmem with h | h
                  · exact d1.1 h.symm
                  · exact d0.1 h.symm
                  · exact d1.2 h.symm
                  · exact d0.2 h.symm
                · simp only [escChar, if_neg h1, if_neg h2, if_neg h3, if_neg h4, if_neg h5,
                    if_neg h6, if_neg h7, if_neg h8]
                  constructor <;> simp <;> rintro rfl <;> exact h8 (by decide)

theorem escList_no_nl (s : JStr) : '\n' ∉ escList s ∧ '\r' ∉ escList s := by
  induction s with
  | nil => simp [escList]
  | cons c t ih =>
    have hc := escChar_no_nl c
    simp only [escList, List.mem_append]
    constructor <;> rintro (h | h)
    · exact hc.1 h
    · exact ih.1 h
    · exact hc.2 h
    · exact ih.2 h

theorem natDec_no_nl (n : Nat) : '\n' ∉ natDec n ∧ '\r' ∉ natDec n := by
  constructor <;> intro h <;>
    exact absurd (natDec_all_digits n _ h) (by decide)

theorem stringify_no_nl :
    (∀ j : Json, '\n' ∉ jsonStringify j ∧ '\r' ∉ jsonStringify j) ∧
    (∀ l : List Json, '\n' ∉ stringifyItems l ∧ '\r' ∉ stringifyItems l) ∧
    (∀ l : List (JStr × Json), '\n' ∉ stringifyFields l ∧ '\r' ∉ stringifyFields l) := by
  refine json_ind_all _ _ _ ?_ ?_ ?_ ?_ ?_ ?_ ?_ ?_ ?_ ?_
  · simp [jsonStringify]
  · intro b; cases b <;> simp [jsonStringify]
  · intro n
    have h := natDec_no_nl n.natAbs
    simp only [jsonStringify, intDec]
    split
    · simp [h.1, h.2]
    · exact h
  · intro s
    have h := escList_no_nl s
    simp [jsonStringify, strLit, h.1, h.2]
  · intro l hl
    simp [jsonStringify, hl.1, hl.2]
  · intro l hl
    simp [jsonStringify, hl.1, hl.2]
  · simp [stringifyItems]
  · intro j l hj hl
    cases l with
    | nil => simpa [stringifyItems] using hj
    | cons y ys =>
      simp [stringifyItems, hj.1, hj.2, hl.1, hl.2]
  · simp [stringifyFields]
  · intro k v l hv hl
    have hk := escList_no_nl k
    cases l with
    | nil =>
      simp [stringifyFields, strLit, hv.1, hv.2, hk.1, hk.2]
    | cons q qs =>
      simp [stringifyFields, strLit, hv.1, hv.2, hk.1, hk.2, hl.1, hl.2]

theorem normalizeCrlf_eq_self (l : JStr) (h : '\r' ∉ l) : normalizeCrlf l = l := by
  induction l with
  | nil => rfl
  | cons c t ih =>
    have hc : c ≠ '\r' := by intro he; exact h (by simp [he])
    have ht : '\r' ∉ t := by intro he; exact h (by simp [he])
    cases t with
    | nil => rfl
    | cons d u =>
      simp only [normalizeCrlf]
      rw [if_neg (show ¬(c = '\x0d' ∧ d = '\n') from fun hcd => hc hcd.1)]
      rw [ih ht]

theorem splitNl_no_nl (l : JStr) (h : '\n' ∉ l) : splitNl l = [l] := by
  induction l with
  | nil => rfl
  | cons c t ih =>
    have hc : ¬ c = '\n' := by intro he; exact h (by simp [he])
    have ht : '\n' ∉ t := by intro he; exact h (by simp [he])
    simp [splitNl, hc, ih ht]

theorem splitFrame_no_nl (l : JStr) (h : '\n' ∉ l) : splitFrame l = none := by
  induction l with
  | nil => rfl
  | cons c t ih =>
    have hc : ¬ c = '\n' := by intro he; exact h (by simp [he])
    have ht : '\n' ∉ t := by intro he; exact h (by simp [he])
    cases t with
    | nil => rfl
    | cons d u =>
      simp only [splitFrame]
      rw [if_neg (show ¬(c = '\n' ∧ d = '\n') from fun hcd => hc hcd.1)]
      rw [ih ht]
      rfl

theorem splitFrame_prefix_none (P Q M : JStr) (hM : '\n' ∉ M)
    (heq : P ++ Q = M ++ ['\n', '\n']) (hQ : Q ≠ []) : splitFrame P = none := by
  induction P generalizing M with
  | nil => rfl
  | cons c P' ih =>
    cases M with
    | nil =>
      simp only [List.nil_append, List.cons_append, List.cons.injEq] at heq
      obtain ⟨rfl, h2⟩ := heq
      cases P' with
      | nil => rfl
      | cons d R =>
        simp only [List.cons_append, List.cons.injEq] at h2
        obtain ⟨rfl, h3⟩ := h2
        exact absurd (List.append_eq_nil.1 h3).2 hQ
    | cons m M' =>
      simp only [List.cons_append, List.cons.injEq] at heq
      obtain ⟨rfl, h2⟩ := heq
      have hc : ¬ c = '\n' := by intro he; exact hM (by simp [he])
      have hM' : '\n' ∉ M' := by intro he; exact hM (by simp [he])
      cases P' with
      | nil => rfl
      | cons d R =>
        simp only [splitFrame]
        rw [if_neg (show ¬(c = '\n' ∧ d = '\n') from fun hcd => hc hcd.1)]
        rw [ih M' hM' h2]
        rfl

theorem splitFrame_boundary (M r : JStr) (hM : '\n' ∉ M) :
    splitFrame (M ++ ('\n' :: '\n' :: r)) = some (M, r) := by
  induction M with
  | nil => simp [splitFrame]
  | cons c t ih =>
    have hc : ¬ c = '\n' := by intro he; exact hM (by simp [he])
    have ht : '\n' ∉ t := by intro he; exact hM (by simp [he])
    have hne : t ++ ('\n' :: '\n' :: r) ≠ [] := by simp
    cases he : t ++ ('\n' :: '\n' :: r) with
    | nil => exact absurd he hne
    | cons d u =>
      rw [List.cons_append, he]
      simp only [splitFrame]
      rw [if_neg (show ¬(c = '\n' ∧ d = '\n') from fun hcd => hc hcd.1)]
      rw [← he, ih ht]
      rfl

theorem trimJs_cons_ws (c : Char) (p : JStr) (h : isWsC c = true) :
    trimJs (c :: p) = trimJs p := by
  simp [trimJs, List.dropWhile_cons, h]

theorem trimJs_eq_self (p : JStr) (hh : ∀ c, p.head? = some c → isWsC c = false)
    (hl : ∀ c, p.getLast? = some c → isWsC c = false) : trimJs p = p := by
  cases p with
  | nil => rfl
  | cons c t =>
    have h1 : isWsC c = false := hh c rfl
    unfold trimJs
    rw [List.dropWhile_cons, if_neg (by simp [h1])]
    cases hrev : (c :: t).reverse with
    | nil => simp at hrev
    | cons d u =>
      have hd : isWsC d = false := by
        apply hl
        rw [← List.head?_reverse, hrev]
        rfl
      rw [List.dropWhile_cons, if_neg (by simp [hd])]
      rw [← hrev, List.reverse_reverse]

theorem splitBlocksAux_none (s : JStr) (h : splitFrame s = none) :
    ∀ f, splitBlocksAux f s = [s] := by
  intro f
  cases f <;> simp [splitBlocksAux, h]

theorem blockData_data_line (p : JStr) (hnl2 : '\n' ∉ js "data: " ++ p)
    (htrim : trimJs (' ' :: p) = p) (hne : p ≠ []) :
    blockData (js "data: " ++ p) = [p] := by
  rw [blockData, splitNl_no_nl _ hnl2]
  have heq : js "data: " ++ p = js "data:" ++ (' ' :: p) := rfl
  have hpref : (js "data:").isPrefixOf (js "data: " ++ p) = true := by
    rw [heq]
    exact isPrefixOf_append_self _ _
  have hdrop : (js "data: " ++ p).drop 5 = ' ' :: p := rfl
  simp [sseDataLine, hpref, hdrop, htrim, hne]

theorem parseSsePayload_data (p : JStr) (hnl2 : '\n' ∉ js "data: " ++ p)
    (hcr2 : '\r' ∉ js "data: " ++ p)
    (htrim : trimJs (' ' :: p) = p) (hne : p ≠ []) :
    parseSsePayloadFromText (js "data: " ++ p) = [p] := by
  rw [parseSsePayloadFromText, normalizeCrlf_eq_self _ hcr2, splitBlocks,
    splitBlocksAux_none _ (splitFrame_no_nl _ hnl2)]
  simp [blockData_data_line p hnl2 htrim hne]

theorem parseSsePayload_full (p : JStr) (hnl2 : '\n' ∉ js "data: " ++ p)
    (hcrF : '\r' ∉ encodeSseFrame p)
    (htrim : trimJs (' ' :: p) = p) (hne : p ≠ []) :
    parseSsePayloadFromText (encodeSseFrame p) = [p] := by
  have hFeq : encodeSseFrame p = (js "data: " ++ p) ++ ['\n', '\n'] := by
    simp [encodeSseFrame]
  have hsf : splitFrame (encodeSseFrame p) = some (js "data: " ++ p, []) := by
    rw [hFeq]
    exact splitFrame_boundary _ [] hnl2
  have hlen : (encodeSseFrame p).length = (js "data: " ++ p).length + 2 := by
    rw [hFeq]
    simp only [List.length_append, List.length_cons, List.length_nil]
  rw [parseSsePayloadFromText, normalizeCrlf_eq_self _ hcrF, splitBlocks, hlen]
  rw [show splitBlocksAux ((js "data: " ++ p).length + 2) (encodeSseFrame p) =
    (js "data: " ++ p) :: splitBlocksAux ((js "data: " ++ p).length + 1) [] by
      simp [splitBlocksAux, hsf]]
  rw [splitBlocksAux_none [] rfl]
  simp [blockData_data_line p hnl2 htrim hne]
  rfl

theorem drainLoop_none (f : Nat) (buf : JStr)
    (h : splitFrame (normalizeCrlf buf) = none) : drainLoop f buf = ([], buf) := by
  cases f <;> simp [drainLoop, h]

theorem drainLoop_full (p : JStr) (hnl2 : '\n' ∉ js "data: " ++ p)
    (hcrF : '\r' ∉ encodeSseFrame p) :
    drainLoop (encodeSseFrame p).length (encodeSseFrame p) =
      ([js "data: " ++ p], []) := by
  have hFeq : encodeSseFrame p = (js "data: " ++ p) ++ ['\n', '\n'] := by
    simp [encodeSseFrame]
  have hsf : splitFrame (normalizeCrlf (encodeSseFrame p)) =
      some (js "data: " ++ p, []) := by
    rw [normalizeCrlf_eq_self _ hcrF, hFeq]
    exact splitFrame_boundary _ [] hnl2
  have hstep : ∀ f, drainLoop (f + 1) (encodeSseFrame p) =
      ((js "data: " ++ p) :: (drainLoop f []).1, (drainLoop f []).2) := by
    intro f
    simp [drainLoop, hsf]
  have hnil : ∀ f, drainLoop f [] = ([], []) := fun f => drainLoop_none f [] rfl
  rw [show (encodeSseFrame p).length = ((js "data: " ++ p).length + 1) + 1 by
    rw [hFeq]
    simp only [List.length_append, List.length_cons, List.length_nil]]
  rw [hstep, hnil]

theorem sseFeed_all_empty : ∀ cs : List JStr, cs.flatten = [] → sseFeed cs [] = [] := by
  intro cs
  induction cs with
  | nil => intro _; rfl
  | cons c cs ih =>
    intro h
    rw [List.flatten_cons] at h
    obtain ⟨rfl, h2⟩ := List.append_eq_nil.1 h
    simp only [sseFeed, List.append_nil, List.length_nil]
    rw [show drainLoop 0 [] = ([], []) from rfl]
    simpa using ih h2

theorem sseFeed_frame (p : JStr) (hnl2 : '\n' ∉ js "data: " ++ p)
    (hcrF : '\r' ∉ encodeSseFrame p)
    (hframe : parseSsePayloadFromText (js "data: " ++ p) = [p])
    (hfull : parseSsePayloadFromText (encodeSseFrame p) = [p]) :
    ∀ (cs : List JStr) (buf : JStr), buf ++ cs.flatten = encodeSseFrame p →
      sseFeed cs buf = [p] := by
  intro cs
  induction cs with
  | nil =>
    intro buf h
    simp only [List.flatten_nil, List.append_nil] at h
    subst h
    exact hfull
  | cons c cs ih =>
    intro buf h
    rw [List.flatten_cons, ← List.append_assoc] at h
    by_cases hq : cs.flatten = []
    · have hbF : buf ++ c = encodeSseFrame p := by rw [hq, List.append_nil] at h; exact h
      simp only [sseFeed, hbF]
      rw [drainLoop_full p hnl2 hcrF]
      simp [hframe, sseFeed_all_empty cs hq]
    · have hcrb : '\r' ∉ buf ++ c := by
        intro hmem
        apply hcrF
        rw [← h]
        exact List.mem_append_left _ hmem
      have hsf : splitFrame (normalizeCrlf (buf ++ c)) = none := by
        rw [normalizeCrlf_eq_self _ hcrb]
        refine splitFrame_prefix_none (buf ++ c) cs.flatten (js "data: " ++ p) hnl2 ?_ hq
        rw [h]
        simp [encodeSseFrame]
      simp only [sseFeed]
      rw [drainLoop_none _ _ hsf]
      simpa using ih (buf ++ c) h

theorem eventToJson_isObj (e : StreamEvent) : ∃ fields, eventToJson e = .obj fields := by
  cases e <;> exact ⟨_, rfl⟩

theorem stringify_event_facts (e : StreamEvent) :
    '\n' ∉ js "data: " ++ jsonStringify (eventToJson e) ∧
    '\r' ∉ encodeSseFrame (jsonStringify (eventToJson e)) ∧
    trimJs (' ' :: jsonStringify (eventToJson e)) = jsonStringify (eventToJson e) ∧
    jsonStringify (eventToJson e) ≠ [] ∧
    (jsonStringify (eventToJson e)).head? = some '\x7b' := by
  obtain ⟨fields, hobj⟩ := eventToJson_isObj e
  have hnl := (stringify_no_nl.1 (eventToJson e)).1
  have hcr := (stringify_no_nl.1 (eventToJson e)).2
  have hshape : jsonStringify (eventToJson e) =
      '\x7b' :: (stringifyFields fields ++ ['\x7d']) := by
    rw [hobj]
    simp [jsonStringify]
  have hne : jsonStringify (eventToJson e) ≠ [] := by rw [hshape]; simp
  have hhead : ∀ c, (jsonStringify (eventToJson e)).head? = some c → isWsC c = false := by
    rw [hshape]
    intro c hc
    simp at hc
    subst hc
    decide
  have hlast : ∀ c, (jsonStringify (eventToJson e)).getLast? = some c → isWsC c = false := by
    rw [hshape]
    intro c hc
    rw [show '\x7b' :: (stringifyFields fields ++ ['\x7d']) =
      ('\x7b' :: stringifyFields fields) ++ ['\x7d'] by simp] at hc
    rw [List.getLast?_concat] at hc
    simp at hc
    subst hc
    decide
  refine ⟨?_, ?_, ?_, hne, by rw [hshape]; rfl⟩
  · intro hmem
    rcases List.mem_append.1 hmem with h | h
    · exact absurd h (by decide)
    · exact hnl h
  · intro hmem
    simp only [encodeSseFrame, List.append_assoc, List.mem_append] at hmem
    rcases hmem with h | h | h
    · exact absurd h (by decide)
    · exact hcr h
    · exact absurd h (by decide)
  · rw [trimJs_cons_ws _ _ (by decide)]
    exact trimJs_eq_self _ hhead hlast

/-- Claim C2: for every schema-valid stream event and every way of splitting
the encoded SSE frame (one `data:` line carrying the JSON-encoded event,
terminated by a blank line) into read chunks — including splits in the middle
of the frame — the client SSE decoder (`parseSseData` + the `chatStream`
payload handling) yields exactly the single event, unchanged. -/
theorem sse_roundtrip_chunked (e : StreamEvent) (chunks : List JStr)
    (hwf : eventWf e = true)
    (hsplit : chunks.flatten = encodeSseFrame (jsonStringify (eventToJson e))) :
    chatStreamDecode chunks = [e] := by
  obtain ⟨hnl2, hcrF, htrim, hne, hhead⟩ := stringify_event_facts e
  have hcr2 : '\r' ∉ js "data: " ++ jsonStringify (eventToJson e) := by
    intro hmem
    apply hcrF
    simp only [encodeSseFrame, List.append_assoc, List.mem_append]
    rcases List.mem_append.1 hmem with h | h
    · exact Or.inl h
    · exact Or.inr (Or.inl h)
  have hframe := parseSsePayload_data _ hnl2 hcr2 htrim hne
  have hfull := parseSsePayload_full _ hnl2 hcrF htrim hne
  have hfeed := sseFeed_frame _ hnl2 hcrF hframe hfull chunks [] (by simpa using hsplit)
  have hnd : ¬(jsonStringify (eventToJson e) = [] ∨
      jsonStringify (eventToJson e) = js "[DONE]") := by
    rintro (h | h)
    · exact hne h
    · have := congrArg List.head? h
      rw [hhead] at this
      exact absurd this (by decide)
  rw [chatStreamDecode, hfeed]
  simp [clientDecodePayload, hnd, jsonParse_eventToJson e, validate_eventToJson e hwf]

/-- Witness for C2 at a concrete event and a concrete mid-frame split. -/
theorem sse_roundtrip_chunked_witness :
    chatStreamDecode [js "data: \x7b\"ty", js "pe\":\"token\",\"text\":\"hi\"\x7d\n\n"] =
      [StreamEvent.token (js "hi")] :=
  sse_roundtrip_chunked (StreamEvent.token (js "hi"))
    [js "data: \x7b\"ty", js "pe\":\"token\",\"text\":\"hi\"\x7d\n\n"]
    (by decide) (by decide)

theorem encodeSseFrame_inj {p1 p2 : JStr} (h : encodeSseFrame p1 = encodeSseFrame p2) :
    p1 = p2 := by
  simp only [encodeSseFrame, List.append_assoc] at h
  have h2 := List.append_cancel_left h
  exact List.append_cancel_right h2

theorem event_frame_ne_done (e : StreamEvent) :
    encodeSseFrame (jsonStringify (eventToJson e)) ≠ encodeSseFrame (js "[DONE]") := by
  intro h
  have h2 := encodeSseFrame_inj h
  have h3 := (stringify_event_facts e).2.2.2.2
  rw [h2] at h3
  exact absurd h3 (by decide)

/-- Claim C4: the streaming endpoint writes all event frames followed by a
final `data: [DONE]` frame when the producing sequence completes normally;
when the sequence fails after delivering `evs`, it writes exactly one
synthetic error frame (`code="provider_error"`, `retryable=false`, message
equal to the failure's text) in place of the remaining output and no
`[DONE]` frame at all. -/
theorem chat_stream_handler_spec (evs : List StreamEvent) (failure : Option JStr) :
    (failure = none →
      chatStreamHandlerFrames evs failure =
        evs.map (fun e => encodeSseFrame (jsonStringify (eventToJson e))) ++
          [encodeSseFrame (js "[DONE]")] ∧
      (chatStreamHandlerFrames evs failure).getLast? =
        some (encodeSseFrame (js "[DONE]"))) ∧
    (∀ msg, failure = some msg →
      chatStreamHandlerFrames evs failure =
        evs.map (fun e => encodeSseFrame (jsonStringify (eventToJson e))) ++
          [encodeSseFrame (jsonStringify (eventToJson
            (StreamEvent.error (js "provider_error") msg false)))] ∧
      encodeSseFrame (js "[DONE]") ∉ chatStreamHandlerFrames evs failure) := by
  constructor
  · rintro rfl
    refine ⟨rfl, ?_⟩
    simp [chatStreamHandlerFrames]
  · rintro msg rfl
    refine ⟨rfl, ?_⟩
    intro hmem
    simp only [chatStreamHandlerFrames, providerErrorEvent, List.mem_append,
      List.mem_map, List.mem_singleton] at hmem
    rcases hmem with ⟨e, -, he⟩ | he
    · exact event_frame_ne_done e he
    · exact event_frame_ne_done (StreamEvent.error (js "provider_error") msg false) he.symm

/-- Witness for C4 at concrete inputs: a completed empty sequence yields just
the `[DONE]` frame, and a failed sequence yields just the error frame, with
no `[DONE]` frame present. -/
theorem chat_stream_handler_spec_witness :
    (chatStreamHandlerFrames [] none =
      [] ++ [encodeSseFrame (js "[DONE]")] ∧
      (chatStreamHandlerFrames [] none).getLast? = some (encodeSseFrame (js "[DONE]"))) ∧
    (chatStreamHandlerFrames [] (some (js "boom")) =
      [] ++ [encodeSseFrame (jsonStringify (eventToJson
        (StreamEvent.error (js "provider_error") (js "boom") false)))] ∧
      encodeSseFrame (js "[DONE]") ∉ chatStreamHandlerFrames [] (some (js "boom"))) := by
  refine ⟨?_, ?_⟩
  · have h := (chat_stream_handler_spec [] none).1 rfl
    simpa using h
  · have h := (chat_stream_handler_spec [] (some (js "boom"))).2 (js "boom") rfl
    simpa using h

/-- Claim C7: on a nonzero exit the failure message is the trimmed stderr
when non-empty, else the trimmed stdout when non-empty, else `exit code N`;
the CLI adapter selects the same text and prefixes its thrown message with
`<kind> command failed: `. -/
theorem cli_failure_message_spec (stdout stderr kind : JStr) (code : Int)
    (hcode : code ≠ 0) :
    (trimJs stderr ≠ [] → wrappedFailureMessage stdout stderr code = trimJs stderr) ∧
    (trimJs stderr = [] → trimJs stdout ≠ [] →
      wrappedFailureMessage stdout stderr code = trimJs stdout) ∧
    (trimJs stderr = [] → trimJs stdout = [] →
      wrappedFailureMessage stdout stderr code = js "exit code " ++ intDec code) ∧
    cliAdapterErrorText stdout stderr code = wrappedFailureMessage stdout stderr code ∧
    cliAdapterFailureMessage kind stdout stderr code =
      kind ++ js " command failed: " ++ wrappedFailureMessage stdout stderr code := by
  refine ⟨?_, ?_, ?_, ?_, ?_⟩
  · intro h1
    simp [wrappedFailureMessage, h1]
  · intro h1 h2
    simp [wrappedFailureMessage, h1, h2]
  · intro h1 h2
    simp [wrappedFailureMessage, h1, h2]
  · rfl
  · simp [cliAdapterFailureMessage, cliAdapterErrorText, wrappedFailureMessage]

/-- Witness for C7: nonzero exit, empty stdout, stderr `"boom"` gives the
message exactly `"boom"`. -/
theorem cli_failure_message_spec_witness :
    wrappedFailureMessage (js "") (js "boom") 1 = js "boom" := by
  have h := (cli_failure_message_spec (js "") (js "boom") (js "claude-code-cli") 1
    (by decide)).1 (by decide)
  exact h.trans (by decide)

theorem withNl_length (ls : List JStr) : (withNl ls).length = ls.length := by
  induction ls with
  | nil => rfl
  | cons l rest ih =>
    cases rest with
    | nil => rfl
    | cons m t =>
      simp only [withNl, List.length_cons] at ih ⊢
      omega

theorem withNl_getD (ls : List JStr) : ∀ i, i < ls.length →
    (withNl ls).getD i [] =
      (ls.getD i []) ++ (if i + 1 < ls.length then ['\n'] else []) := by
  induction ls with
  | nil => intro i hi; simp at hi
  | cons l rest ih =>
    intro i hi
    cases rest with
    | nil =>
      cases i with
      | zero => simp [withNl]
      | succ i' => simp at hi
    | cons m t =>
      cases i with
      | zero =>
        simp only [withNl, List.getD_cons_zero, List.length_cons]
        rw [if_pos (by omega)]
      | succ i' =>
        simp only [withNl, List.getD_cons_succ, List.length_cons]
        rw [ih i' (by simpa using hi)]
        simp only [List.length_cons]
        rcases Nat.lt_or_ge (i' + 1) (t.length + 1) with h | h
        · rw [if_pos h, if_pos (by omega)]
        · rw [if_neg (by omega), if_neg (by omega)]

theorem freshId_inj {n m : Nat} (h : freshId n = freshId m) : n = m := by
  have h2 : natDec n = natDec m := List.append_cancel_left h
  have := natDec_val n
  rw [h2, natDec_val m] at this
  exact this.symm

/-- Claim C1 (code bug in the client fallback): the client `chatStream`
non-SSE JSON fallback emits a well-shaped sequence (`message_start`, one
`token`, `message_end`), but the `messageId` of the `message_start` event and
the `messageId` of the `message_end` event come from two separate
`randomId()` calls and are therefore distinct, violating the invariant that
they match. -/
theorem client_fallback_distinct_message_ids
    (threadId text now1 now2 : JStr) (n : Nat) :
    clientChatFallbackEvents threadId text now1 now2 n =
      [StreamEvent.message_start (freshId n) threadId now1,
       StreamEvent.token text,
       StreamEvent.message_end (freshId (n + 1)) text MsgStatus.received now2] ∧
    freshId n ≠ freshId (n + 1) := by
  refine ⟨rfl, fun h => ?_⟩
  have := freshId_inj h
  omega

theorem splitLinesCR_hi : splitLinesCR (js "hi") = [js "hi"] := by decide

/-- Counterexample to Claim C8 as stated: the wrapped-command server stream
(`runWrappedCommandStream`) appends a newline to every non-empty line,
including the final one, so a single-line output `"hi"` is emitted as the one
token `"hi\n"`, not verbatim. -/
theorem wrapped_single_line_not_verbatim :
    wrappedStreamTokens (js "hi") = [js "hi" ++ ['\n']] ∧
    wrappedStreamTokens (js "hi") ≠ [js "hi"] := by
  refine ⟨by decide, by decide⟩

/-- Claim C8 (amended): `chunkText` (the CLI adapter's chunking) emits one
token per non-empty line, restoring the trailing newline on all but the final
line, and emits a single-line output verbatim as one token; the wrapped-command
server stream instead appends a newline to every non-empty line, including the
final one. -/
theorem chunking_spec (text output : JStr) :
    (trimJs text = [] → chunkText text = []) ∧
    (trimJs text ≠ [] →
      ((splitLinesCR (trimJs text)).filter (fun l => !l.isEmpty)).length ≤ 1 →
      chunkText text = [trimJs text]) ∧
    (∀ lines, lines = (splitLinesCR (trimJs text)).filter (fun l => !l.isEmpty) →
      ¬ lines.length ≤ 1 →
      (chunkText text).length = lines.length ∧
      ∀ i, i < lines.length →
        (chunkText text).getD i [] =
          (lines.getD i []) ++ (if i + 1 < lines.length then ['\n'] else [])) ∧
    (output ≠ [] →
      wrappedStreamTokens output =
        ((splitLinesCR output).filter (fun l => !l.isEmpty)).map
          (fun l => l ++ ['\n'])) := by
  refine ⟨?_, ?_, ?_, ?_⟩
  · intro h
    simp [chunkText, h]
  · intro h1 h2
    rw [chunkText]
    simp only [if_neg h1, if_pos h2]
  · rintro lines rfl hgt
    have hne : trimJs text ≠ [] := by
      intro h0
      apply hgt
      simp [h0]
      decide
    rw [chunkText]
    simp only [if_neg hne, if_neg hgt]
    exact ⟨withNl_length _, withNl_getD _⟩
  · intro h
    simp [wrappedStreamTokens, h]

/-- Witness for C8 (amended) at a two-line output: `chunkText "a\nb"` keeps the
newline on the first line only, and the wrapped stream appends one to both. -/
theorem chunking_spec_witness :
    chunkText (js "a\nb") = [js "a" ++ ['\n'], js "b"] ∧
    wrappedStreamTokens (js "a\nb") = [js "a" ++ ['\n'], js "b" ++ ['\n']] := by
  constructor
  · have h := (chunking_spec (js "a\nb") (js "a\nb")).2.2.1
      ((splitLinesCR (trimJs (js "a\nb"))).filter (fun l => !l.isEmpty)) rfl (by decide)
    have hlen := h.1
    have h0 := h.2 0 (by decide)
    have h1 := h.2 1 (by decide)
    have hlines : ((splitLinesCR (trimJs (js "a\nb"))).filter (fun l => !l.isEmpty)) =
        [js "a", js "b"] := by decide
    rw [hlines] at hlen h0 h1
    match hck : chunkText (js "a\nb") with
    | [] => rw [hck] at hlen; simp at hlen
    | [x] => rw [hck] at hlen; simp at hlen
    | x :: y :: z :: t => rw [hck] at hlen; simp at hlen
    | [x, y] =>
      rw [hck] at h0 h1
      simp only [List.getD_cons_zero, List.getD_cons_succ] at h0 h1
      rw [h0, h1]
      simp
  · have h := (chunking_spec (js "a\nb") (js "a\nb")).2.2.2 (by decide)
    rw [h]
    decide

/-- `jsonParse` of the empty string fails. -/
theorem jsonParse_nil : jsonParse [] = none := rfl

/-- Counterexample to Claim C3 as stated: the SSE payload `\x7b\x7d` parses as
JSON, fails StreamEvent validation, and carries no string `text` or `token`
field, and the remote-HTTP decoder drops it without producing any event. -/
theorem sse_payload_silently_dropped :
    jsonParse (js "\x7b\x7d") = some (Json.obj []) ∧
    validateStreamEvent (Json.obj []) = none ∧
    js "\x7b\x7d" ≠ js "[DONE]" ∧
    remoteDecodePayload (js "\x7b\x7d") = [] := by
  exact ⟨rfl, rfl, by decide, rfl⟩

/-- Claim C3 (amended): for a non-`[DONE]` payload, the remote-HTTP decoder
passes a validating JSON payload through as its event, re-emits a
non-validating JSON payload carrying a string `text` (else `token`) field as a
token event with that string, emits a raw token event for a payload that is
not JSON, and drops (emits nothing for) a JSON payload that fails validation
and has neither field; the client decoder passes a validating payload through
and re-emits every other non-empty payload as a raw token event. -/
theorem sse_payload_decode_spec (p : JStr) (hdone : p ≠ js "[DONE]") :
    (∀ j e, jsonParse p = some j → validateStreamEvent j = some e →
      remoteDecodePayload p = [e] ∧ clientDecodePayload p = [e]) ∧
    (∀ j t, jsonParse p = some j → validateStreamEvent j = none →
      jget j (js "text") = some (Json.str t) →
      remoteDecodePayload p = [StreamEvent.token t]) ∧
    (∀ j t, jsonParse p = some j → validateStreamEvent j = none →
      (∀ u, jget j (js "text") ≠ some (Json.str u)) →
      jget j (js "token") = some (Json.str t) →
      remoteDecodePayload p = [StreamEvent.token t]) ∧
    (∀ j, jsonParse p = some j → validateStreamEvent j = none →
      (∀ u, jget j (js "text") ≠ some (Json.str u)) →
      (∀ u, jget j (js "token") ≠ some (Json.str u)) →
      remoteDecodePayload p = []) ∧
    (jsonParse p = none → remoteDecodePayload p = [StreamEvent.token p]) ∧
    (∀ j, jsonParse p = some j → validateStreamEvent j = none →
      clientDecodePayload p = [StreamEvent.token p]) ∧
    (jsonParse p = none → p ≠ [] → clientDecodePayload p = [StreamEvent.token p]) := by
  have hnil : ∀ j : Json, jsonParse p = some j → p ≠ [] := by
    intro j hj h0
    rw [h0, jsonParse_nil] at hj
    exact Option.noConfusion hj
  refine ⟨?_, ?_, ?_, ?_, ?_, ?_, ?_⟩
  · intro j e hj he
    constructor
    · simp only [remoteDecodePayload, if_neg hdone, hj, he]
    · simp only [clientDecodePayload, hj, he]
      rw [if_neg]
      push_neg
      exact ⟨hnil j hj, hdone⟩
  · intro j t hj he ht
    simp only [remoteDecodePayload, if_neg hdone, hj, he, ht]
  · intro j t hj he hnt htok
    simp only [remoteDecodePayload, if_neg hdone, hj, he, htok]
  · intro j hj he hnt hntok
    simp only [remoteDecodePayload, if_neg hdone, hj, he]
  · intro hj
    simp only [remoteDecodePayload, if_neg hdone, hj]
  · intro j hj he
    simp only [clientDecodePayload, hj, he]
    rw [if_neg]
    push_neg
    exact ⟨hnil j hj, hdone⟩
  · intro hj hne
    simp only [clientDecodePayload, hj]
    rw [if_neg]
    push_neg
    exact ⟨hne, hdone⟩

/-- Witness for C3 (amended): the payload `\x7b"text":"hi"\x7d` is JSON, fails
validation, carries a string `text` field, and the remote decoder re-emits it
as the token event `"hi"`. -/
theorem sse_payload_decode_spec_witness :
    remoteDecodePayload (js "\x7b\"text\":\"hi\"\x7d") = [StreamEvent.token (js "hi")] := by
  exact (sse_payload_decode_spec (js "\x7b\"text\":\"hi\"\x7d") (by decide)).2.1
    (Json.obj [(js "text", Json.str (js "hi"))]) (js "hi") (by rfl) (by rfl) (by rfl)

/-- Claim C6: `normalizeCliOutput` in json mode returns the first non-empty
priority-key extraction of a fully-parsing stdout (so `\x7b"result":"hi"\x7d`
normalizes to `hi`); when whole-document parsing fails it joins the per-line
extractions with newline, ignoring lines that fail to parse or extract (so of
two lines with one valid JSON line the output is that line's extraction); in
text mode, or when json extraction yields nothing, it returns trimmed stdout,
and trimmed stderr when stdout is empty. -/
theorem normalizeCliOutput_spec (stdout stderr : JStr) :
    (∀ j, jsonParse (trimJs stdout) = some j → trimJs (extractText j) ≠ [] →
      normalizeCliOutput stdout stderr CliParseMode.json = trimJs (extractText j)) ∧
    (jsonParse (trimJs stdout) = none → trimJs stdout ≠ [] →
      ndjsonParts (trimJs stdout) ≠ [] →
      normalizeCliOutput stdout stderr CliParseMode.json =
        joinNl (ndjsonParts (trimJs stdout))) ∧
    (jsonParse (trimJs stdout) = none → trimJs stdout ≠ [] →
      ndjsonParts (trimJs stdout) = [] →
      normalizeCliOutput stdout stderr CliParseMode.json = trimJs stdout) ∧
    (∀ j, jsonParse (trimJs stdout) = some j → trimJs (extractText j) = [] →
      normalizeCliOutput stdout stderr CliParseMode.json = trimJs stdout) ∧
    (trimJs stdout ≠ [] →
      normalizeCliOutput stdout stderr CliParseMode.text = trimJs stdout) ∧
    (trimJs stdout = [] → ∀ m, normalizeCliOutput stdout stderr m = trimJs stderr) ∧
    normalizeCliOutput (js "\x7b\"result\":\"hi\"\x7d") (js "")
      CliParseMode.json = js "hi" ∧
    normalizeCliOutput (js "notjson\n\x7b\"text\":\"yes\"\x7d") (js "")
      CliParseMode.json = js "yes" ∧
    extractText (Json.obj [(js "content", Json.str (js "a")),
      (js "result", Json.str (js "b"))]) = js "b" := by
  have hnil : ∀ j : Json, jsonParse (trimJs stdout) = some j → trimJs stdout ≠ [] := by
    intro j hj h0
    rw [h0, jsonParse_nil] at hj
    exact Option.noConfusion hj
  refine ⟨?_, ?_, ?_, ?_, ?_, ?_, by decide, by decide, by decide⟩
  · intro j hj hx
    simp only [normalizeCliOutput]
    rw [if_pos ⟨trivial, hnil j hj⟩]
    simp only [hj]
    rw [if_pos hx]
  · intro hj ht hp
    simp only [normalizeCliOutput]
    rw [if_pos ⟨trivial, ht⟩]
    simp only [hj]
    rw [if_pos hp]
  · intro hj ht hp
    simp only [normalizeCliOutput]
    rw [if_pos ⟨trivial, ht⟩]
    simp only [hj]
    rw [if_neg (show ¬ndjsonParts (trimJs stdout) ≠ [] from fun hne => hne hp),
      if_pos ht]
  · intro j hj hx
    simp only [normalizeCliOutput]
    rw [if_pos ⟨trivial, hnil j hj⟩]
    simp only [hj]
    rw [if_neg (show ¬trimJs (extractText j) ≠ [] from fun hne => hne hx),
      if_pos (hnil j hj)]
  · intro ht
    simp only [normalizeCliOutput]
    rw [if_neg (fun h => by exact absurd h.1 (by decide)), if_pos ht]
  · intro ht m
    simp only [normalizeCliOutput]
    rw [if_neg (fun h => absurd ht h.2), if_neg (by simpa using ht)]

/-- Witness for C6: a whole-document parse with an extractable `result` field,
exercised through the theorem at `stdout = \x7b"result":"hi"\x7d`. -/
theorem normalizeCliOutput_spec_witness :
    normalizeCliOutput (js " \x7b\"result\":\"hi\"\x7d ") (js "x")
      CliParseMode.json = trimJs (extractText (Json.obj [(js "result", Json.str (js "hi"))])) := by
  exact (normalizeCliOutput_spec (js " \x7b\"result\":\"hi\"\x7d ") (js "x")).1
    (Json.obj [(js "result", Json.str (js "hi"))]) (by rfl) (by decide)

theorem splitOnPromptAux_ne_nil : ∀ f s, splitOnPromptAux f s ≠ [] := by
  intro f s
  match f, s with
  | 0, s => simp [splitOnPromptAux]
  | f + 1, [] => simp [splitOnPromptAux]
  | f + 1, c :: rest =>
    simp only [splitOnPromptAux]
    split
    · simp
    · split <;> simp

theorem prefix_decomp {s : JStr} (h : promptPat.isPrefixOf s = true) :
    s = promptPat ++ s.drop 8 ∧ 8 ≤ s.length := by
  rw [List.isPrefixOf_iff_prefix] at h
  obtain ⟨t, ht⟩ := h
  have hlen : promptPat.length = 8 := rfl
  constructor
  · rw [← ht, ← hlen, List.drop_left]
  · rw [← ht, List.length_append, hlen]
    omega

theorem joinWith_splitOnPromptAux :
    ∀ f s, s.length ≤ f → joinWith promptPat (splitOnPromptAux f s) = s := by
  intro f
  induction f with
  | zero =>
    intro s hs
    have h0 : s = [] := List.length_eq_zero.mp (Nat.le_zero.mp hs)
    subst h0
    rfl
  | succ f ih =>
    intro s hs
    cases s with
    | nil => rfl
    | cons c rest =>
      simp only [splitOnPromptAux]
      by_cases hp : promptPat.isPrefixOf (c :: rest) = true
      · rw [if_pos hp]
        obtain ⟨hdec, hlen8⟩ := prefix_decomp hp
        have hlen : ((c :: rest).drop 8).length ≤ f := by
          simp only [List.length_drop, List.length_cons]
          simp only [List.length_cons] at hs hlen8
          omega
        have ihd := ih _ hlen
        cases hsplit : splitOnPromptAux f ((c :: rest).drop 8) with
        | nil => exact absurd hsplit (splitOnPromptAux_ne_nil f _)
        | cons h t =>
          rw [hsplit] at ihd
          show [] ++ promptPat ++ joinWith promptPat (h :: t) = c :: rest
          rw [ihd, List.nil_append]
          exact hdec.symm
      · rw [if_neg hp]
        have ihr := ih rest (by simp only [List.length_cons] at hs; omega)
        cases hsplit : splitOnPromptAux f rest with
        | nil => exact absurd hsplit (splitOnPromptAux_ne_nil f rest)
        | cons h t =>
          rw [hsplit] at ihr
          cases t with
          | nil =>
            show c :: h = c :: rest
            simp only [joinWith] at ihr
            rw [ihr]
          | cons h2 t2 =>
            show (c :: h) ++ promptPat ++ joinWith promptPat (h2 :: t2) = c :: rest
            simp only [joinWith] at ihr
            simp only [List.cons_append, List.append_assoc] at ihr ⊢
            rw [ihr]

theorem getSub_no_dollar (matched before after : JStr) :
    ∀ rep : JStr, '$' ∉ rep → getSub matched before after rep = rep := by
  intro rep
  induction rep with
  | nil => intro h; rfl
  | cons c rest ih =>
    intro h
    simp only [List.mem_cons, not_or] at h
    have hc : c ≠ '$' := fun hcc => h.1 hcc.symm
    cases rest with
    | nil => rfl
    | cons d rest2 =>
      simp only [getSub]
      rw [if_neg hc, ih (by simpa using h.2)]

theorem replaceAllAux_join (prompt : JStr) (hd : '$' ∉ prompt) (orig : JStr) :
    ∀ f pos s, s.length ≤ f →
      replaceAllAux prompt orig f pos s = joinWith prompt (splitOnPromptAux f s) := by
  intro f
  induction f with
  | zero =>
    intro pos s hs
    have h0 : s = [] := List.length_eq_zero.mp (Nat.le_zero.mp hs)
    subst h0
    rfl
  | succ f ih =>
    intro pos s hs
    cases s with
    | nil => rfl
    | cons c rest =>
      simp only [replaceAllAux, splitOnPromptAux]
      by_cases hp : promptPat.isPrefixOf (c :: rest) = true
      · rw [if_pos hp, if_pos hp, getSub_no_dollar _ _ _ prompt hd]
        obtain ⟨hdec, hlen8⟩ := prefix_decomp hp
        have hlen : ((c :: rest).drop 8).length ≤ f := by
          simp only [List.length_drop, List.length_cons]
          simp only [List.length_cons] at hs hlen8
          omega
        have ihd := ih (pos + 8) _ hlen
        cases hsplit : splitOnPromptAux f ((c :: rest).drop 8) with
        | nil => exact absurd hsplit (splitOnPromptAux_ne_nil f _)
        | cons h t =>
          rw [hsplit] at ihd
          rw [ihd]
          show prompt ++ joinWith prompt (h :: t) = [] ++ prompt ++ joinWith prompt (h :: t)
          rw [List.nil_append]
      · rw [if_neg hp, if_neg hp]
        have ihr := ih (pos + 1) rest (by simp only [List.length_cons] at hs; omega)
        cases hsplit : splitOnPromptAux f rest with
        | nil => exact absurd hsplit (splitOnPromptAux_ne_nil f rest)
        | cons h t =>
          rw [hsplit] at ihr
          rw [ihr]
          cases t with
          | nil => rfl
          | cons h2 t2 =>
            show (c :: (h ++ prompt ++ joinWith prompt (h2 :: t2))) =
              (c :: h) ++ prompt ++ joinWith prompt (h2 :: t2)
            simp [List.cons_append, List.append_assoc]

/-- Counterexample to Claim C5 as stated: `replaceAll` applies ECMAScript
`GetSubstitution` to the replacement string, so the prompt `$&` re-inserts
the matched `\x7bprompt\x7d` instead of being inserted itself: the argument
comes back unchanged, its occurrence not replaced with the prompt. -/
theorem dollar_prompt_not_replaced :
    applyPrompt [js "run {prompt}"] (js "$&") true = [js "run {prompt}"] ∧
    js "run {prompt}" ≠ js "run $&" ∧
    containsPrompt (js "run {prompt}") = true := by
  refine ⟨by decide, by decide, by decide⟩

/-- Claim C5 (amended): the server's `applyPrompt` and the adapter's
`applyPromptToArgs` agree; with stdin mode on, nothing is appended (output
length equals input length) and each argument is rewritten in place (those
without the placeholder unchanged); with stdin mode off and no argument
containing `\x7bprompt\x7d`, the prompt is appended as one final argument.
Per-argument rewriting is `replaceAll` with ECMAScript `GetSubstitution` of
the prompt: for a prompt containing no `$`, every occurrence is replaced by
the prompt literally (`replacePrompt` reassembles the occurrence-split of
the argument with the prompt, the split itself reassembling to the argument
under the placeholder); a `$$`, `$&`, backquote or quote `$`-sequence in
the prompt instead expands per `GetSubstitution`, shown on closed
instances. -/
theorem prompt_substitution_spec (args : List JStr) (prompt : JStr) (stdinMode : Bool) :
    applyPrompt args prompt stdinMode = applyPromptToArgs args prompt (!stdinMode) ∧
    (stdinMode = true →
      applyPrompt args prompt stdinMode =
        args.map (fun a => if containsPrompt a then replacePrompt prompt a else a) ∧
      (applyPrompt args prompt stdinMode).length = args.length) ∧
    ((∀ a ∈ args, containsPrompt a = false) → stdinMode = false →
      applyPrompt args prompt stdinMode = args ++ [prompt] ∧
      (applyPrompt args prompt stdinMode).length = args.length + 1) ∧
    ((∀ a ∈ args, containsPrompt a = false) → stdinMode = true →
      applyPrompt args prompt stdinMode = args) ∧
    ('$' ∉ prompt → ∀ a, replacePrompt prompt a = joinWith prompt (splitOnPrompt a)) ∧
    (∀ a, joinWith promptPat (splitOnPrompt a) = a) ∧
    replacePrompt (js "$$") (js "a{prompt}b") = js "a$b" ∧
    replacePrompt (js "$&") (js "a{prompt}b") = js "a{prompt}b" ∧
    replacePrompt (js "$\x60") (js "a{prompt}b") = js "aab" ∧
    replacePrompt (js "$\x27") (js "a{prompt}b") = js "abb" := by
  have hmapid : (∀ a ∈ args, containsPrompt a = false) →
      args.map (fun a => if containsPrompt a then replacePrompt prompt a else a) = args := by
    intro hall
    have hid : ∀ a ∈ args,
        (if containsPrompt a then replacePrompt prompt a else a) = id a := by
      intro a ha
      simp [hall a ha]
    rw [List.map_congr_left hid, List.map_id]
  have hany : (∀ a ∈ args, containsPrompt a = false) → args.any containsPrompt = false := by
    intro hall
    simp only [List.any_eq_false]
    intro a ha
    simp [hall a ha]
  refine ⟨rfl, ?_, ?_, ?_, ?_, ?_, by decide, by decide, by decide, by decide⟩
  · rintro rfl
    constructor
    · simp [applyPrompt]
    · simp [applyPrompt]
  · rintro hall rfl
    constructor
    · simp [applyPrompt, hany hall, hmapid hall]
    · simp [applyPrompt, hany hall, hmapid hall]
  · rintro hall rfl
    simp only [applyPrompt, Bool.not_true, Bool.false_and, Bool.false_eq_true, if_false]
    exact hmapid hall
  · intro hd a
    exact replaceAllAux_join prompt hd a a.length 0 a le_rfl
  · intro a
    exact joinWith_splitOnPromptAux a.length a le_rfl

/-- Witness for C5 (amended) at a concrete call: appending when no argument
holds the placeholder and stdin mode is off, and literal in-place
substitution of a `$`-free prompt with stdin mode on. -/
theorem prompt_substitution_spec_witness :
    applyPrompt [js "-p"] (js "hello") false = [js "-p", js "hello"] ∧
    replacePrompt (js "hi") (js "run {prompt} now") =
      joinWith (js "hi") (splitOnPrompt (js "run {prompt} now")) := by
  constructor
  · exact ((prompt_substitution_spec [js "-p"] (js "hello") false).2.2.1
      (by intro a ha; simp at ha; subst ha; decide) rfl).1.trans (by decide)
  · exact (prompt_substitution_spec [] (js "hi") true).2.2.2.2.1 (by decide)
      (js "run {prompt} now")

theorem latch_unsettled_run (timeoutMs : Nat) (command : JStr) :
    ∀ (sigs : List CliSignal) (st : LatchState),
      st.completed = false → (∀ s ∈ sigs, isTerminal s = false) →
      (sigs.foldl (latchStep timeoutMs command) st).completed = false ∧
      (sigs.foldl (latchStep timeoutMs command) st).settled = st.settled := by
  intro sigs
  induction sigs with
  | nil => intro st hc _; exact ⟨hc, rfl⟩
  | cons s rest ih =>
    intro st hc hall
    have hs := hall s (List.mem_cons_self s rest)
    have hrest : ∀ x ∈ rest, isTerminal x = false :=
      fun x hx => hall x (List.mem_cons_of_mem s hx)
    cases s with
    | stdoutData d =>
      simpa using ih { st with stdout := st.stdout ++ d } hc hrest
    | stderrData d =>
      simpa using ih { st with stderr := st.stderr ++ d } hc hrest
    | timeout => simp [isTerminal] at hs
    | childError m => simp [isTerminal] at hs
    | childClose code => simp [isTerminal] at hs

theorem latch_completed_run (timeoutMs : Nat) (command : JStr) :
    ∀ (sigs : List CliSignal) (st : LatchState), st.completed = true →
      (sigs.foldl (latchStep timeoutMs command) st).completed = true ∧
      (sigs.foldl (latchStep timeoutMs command) st).settled = st.settled ∧
      (sigs.foldl (latchStep timeoutMs command) st).killed = st.killed := by
  intro sigs
  induction sigs with
  | nil => intro st hc; exact ⟨hc, rfl, rfl⟩
  | cons s rest ih =>
    intro st hc
    cases s with
    | stdoutData d =>
      simpa using ih { st with stdout := st.stdout ++ d } hc
    | stderrData d =>
      simpa using ih { st with stderr := st.stderr ++ d } hc
    | timeout =>
      simp only [List.foldl_cons, latchStep, hc, if_pos]
      exact ih st hc
    | childError m =>
      simp only [List.foldl_cons, latchStep, hc, if_pos]
      exact ih st hc
    | childClose code =>
      simp only [List.foldl_cons, latchStep, hc, if_pos]
      exact ih st hc

theorem containsSub_surround (pat : JStr) :
    ∀ (x : JStr), ∀ y, containsSub pat (x ++ pat ++ y) = true := by
  intro x
  induction x with
  | nil =>
    intro y
    cases pat with
    | nil =>
      cases y with
      | nil => rfl
      | cons d t => simp [containsSub, List.isPrefixOf]
    | cons c r =>
      simp only [List.nil_append, List.cons_append, containsSub]
      rw [Bool.or_eq_true]
      left
      rw [List.isPrefixOf_iff_prefix]
      exact ⟨y, by simp⟩
  | cons c r ih =>
    intro y
    simp only [List.cons_append, containsSub]
    rw [Bool.or_eq_true]
    right
    exact ih y

/-- Claim C9: the `runCliCommand` completion is a one-shot latch: after any
run of non-terminal callbacks the promise is unsettled; the first terminal
callback (timeout, child error, or child close) settles it, every
later-delivered callback leaves the settlement (and the kill flag) unchanged,
and the settlement is never `none` again; a winning timeout kills the child
and rejects with a message containing `timed out after <ms>ms`. -/
theorem latch_one_shot (timeoutMs : Nat) (command : JStr)
    (pre post : List CliSignal) (sig : CliSignal)
    (hpre : ∀ s ∈ pre, isTerminal s = false) (hsig : isTerminal sig = true) :
    (runLatch timeoutMs command pre).settled = none ∧
    (runLatch timeoutMs command (pre ++ sig :: post)).settled =
      (latchStep timeoutMs command (runLatch timeoutMs command pre) sig).settled ∧
    (runLatch timeoutMs command (pre ++ sig :: post)).killed =
      (latchStep timeoutMs command (runLatch timeoutMs command pre) sig).killed ∧
    (runLatch timeoutMs command (pre ++ sig :: post)).settled ≠ none ∧
    (sig = CliSignal.timeout →
      (runLatch timeoutMs command (pre ++ sig :: post)).settled =
        some (Except.error (timeoutMessage timeoutMs command)) ∧
      (runLatch timeoutMs command (pre ++ sig :: post)).killed = true ∧
      containsSub (js "timed out after " ++ natDec timeoutMs ++ js "ms")
        (timeoutMessage timeoutMs command) = true) ∧
    (∀ m, sig = CliSignal.childError m →
      (runLatch timeoutMs command (pre ++ sig :: post)).settled =
        some (Except.error m)) ∧
    (∀ code, sig = CliSignal.childClose code →
      (runLatch timeoutMs command (pre ++ sig :: post)).settled =
        some (Except.ok ⟨(runLatch timeoutMs command pre).stdout,
          (runLatch timeoutMs command pre).stderr, code.getD 0⟩)) := by
  have hmid := latch_unsettled_run timeoutMs command pre initLatch rfl hpre
  have hc : (runLatch timeoutMs command pre).completed = false := hmid.1
  have hsplit : runLatch timeoutMs command (pre ++ sig :: post) =
      post.foldl (latchStep timeoutMs command)
        (latchStep timeoutMs command (runLatch timeoutMs command pre) sig) := by
    simp [runLatch, List.foldl_append]
  have hstep1 : (latchStep timeoutMs command (runLatch timeoutMs command pre) sig).completed
      = true := by
    cases sig <;> simp_all [latchStep, isTerminal]
  have hpost := latch_completed_run timeoutMs command post
    (latchStep timeoutMs command (runLatch timeoutMs command pre) sig) hstep1
  have hset : (runLatch timeoutMs command (pre ++ sig :: post)).settled =
      (latchStep timeoutMs command (runLatch timeoutMs command pre) sig).settled := by
    rw [hsplit]
    exact hpost.2.1
  have hkill : (runLatch timeoutMs command (pre ++ sig :: post)).killed =
      (latchStep timeoutMs command (runLatch timeoutMs command pre) sig).killed := by
    rw [hsplit]
    exact hpost.2.2
  refine ⟨hmid.2, hset, hkill, ?_, ?_, ?_, ?_⟩
  · rw [hset]
    cases sig with
    | stdoutData d => simp [isTerminal] at hsig
    | stderrData d => simp [isTerminal] at hsig
    | timeout => simp [latchStep, hc]
    | childError m => simp [latchStep, hc]
    | childClose code => simp [latchStep, hc]
  · rintro rfl
    have h1 : js "CLI command " ++ js "timed out after " =
        js "CLI command timed out after " := by decide
    have h2 : js "ms" ++ js ": " = js "ms: " := by decide
    have hshape : timeoutMessage timeoutMs command =
        js "CLI command " ++ (js "timed out after " ++ natDec timeoutMs ++ js "ms") ++
          (js ": " ++ command) := by
      simp only [timeoutMessage]
      rw [← h1, ← h2]
      simp [List.append_assoc]
    refine ⟨?_, ?_, ?_⟩
    · rw [hset]
      simp [latchStep, hc]
    · rw [hkill]
      simp [latchStep, hc]
    · rw [hshape]
      exact containsSub_surround _ _ _
  · rintro m rfl
    rw [hset]
    simp [latchStep, hc]
  · rintro code rfl
    rw [hset]
    simp [latchStep, hc]

/-- Witness for C9: data, then a timeout, then a late child-close; the
timeout wins, the promise settles on its rejection, and the close is a
no-op. -/
theorem latch_one_shot_witness :
    (runLatch 100 (js "cmd")
        [CliSignal.stdoutData (js "a"), CliSignal.timeout,
         CliSignal.childClose (some 0)]).settled =
      some (Except.error (timeoutMessage 100 (js "cmd"))) ∧
    (runLatch 100 (js "cmd")
        [CliSignal.stdoutData (js "a"), CliSignal.timeout,
         CliSignal.childClose (some 0)]).killed = true := by
  have h := latch_one_shot 100 (js "cmd") [CliSignal.stdoutData (js "a")]
    [CliSignal.childClose (some 0)] CliSignal.timeout
    (by intro s hs; simp at hs; subst hs; rfl) rfl
  have ht := h.2.2.2.2.1 rfl
  exact ⟨ht.1, ht.2.1⟩

theorem needE_pos : ∀ j, 1 ≤ needE j := by
  intro j
  cases j <;> simp [needE]

theorem jlookup_needE : ∀ (fields : List (JStr × Json)) k v,
    jlookup fields k = some v → needE v ≤ needEP fields := by
  intro fields
  induction fields with
  | nil => intro k v h; exact absurd h (by simp [jlookup])
  | cons kv rest ih =>
    intro k v h
    obtain ⟨k0, v0⟩ := kv
    simp only [jlookup] at h
    simp only [needEP]
    cases hr : jlookup rest k with
    | some r =>
      rw [hr] at h
      have hrv : r = v := by injection h
      subst hrv
      exact le_trans (ih k r hr) (le_max_right _ _)
    | none =>
      rw [hr] at h
      by_cases hk : k0 = k
      · rw [if_pos hk] at h
        have hv : v0 = v := by injection h
        subst hv
        exact le_max_left _ _
      · rw [if_neg hk] at h
        exact absurd h (by simp)

theorem plookup_extractFields : ∀ (fields : List (JStr × Json)) k,
    plookup (extractFields fields) k = (jlookup fields k).map extractText := by
  intro fields
  induction fields with
  | nil => intro k; rfl
  | cons kv rest ih =>
    intro k
    obtain ⟨k0, v0⟩ := kv
    simp only [extractFields, plookup, jlookup, ih]
    cases h : jlookup rest k with
    | some r => simp
    | none =>
      simp only [Option.map_none']
      by_cases hk : k0 = k
      · rw [if_pos hk, if_pos hk]
        rfl
      · rw [if_neg hk, if_neg hk]
        rfl

theorem mapOpt_extract (f : Nat)
    (hf : ∀ j, needE j ≤ f → extractTextF f j = some (extractText j)) :
    ∀ items, needEI items ≤ f →
      mapOpt (extractTextF f) items = some (extractItems items) := by
  intro items
  induction items with
  | nil => intro h; rfl
  | cons j rest ih =>
    intro h
    simp only [needEI, max_le_iff] at h
    simp only [mapOpt, extractItems]
    rw [hf j h.1, ih h.2]

theorem mapOpt_extract_vals (f : Nat)
    (hf : ∀ j, needE j ≤ f → extractTextF f j = some (extractText j)) :
    ∀ fields, needEP fields ≤ f →
      mapOpt (extractTextF f) (fields.map Prod.snd) =
        some ((extractFields fields).map Prod.snd) := by
  intro fields
  induction fields with
  | nil => intro h; rfl
  | cons kv rest ih =>
    intro h
    obtain ⟨k, v⟩ := kv
    simp only [needEP, max_le_iff] at h
    simp only [List.map_cons, mapOpt, extractFields]
    rw [hf v h.1, ih h.2]

theorem firstPreferredG_extract (f : Nat)
    (hf : ∀ j, needE j ≤ f → extractTextF f j = some (extractText j)) :
    ∀ (fields : List (JStr × Json)) ks, needEP fields ≤ f →
      firstPreferredG (extractTextF f) fields ks =
        some (firstPreferred (extractFields fields) ks) := by
  intro fields ks h
  induction ks with
  | nil => rfl
  | cons k rest ih =>
    cases hlk : jlookup fields k with
    | none =>
      simp only [firstPreferredG, firstPreferred, plookup_extractFields, hlk,
        Option.map_none']
      simpa using ih
    | some v =>
      have hv := hf v (le_trans (jlookup_needE fields k v hlk) h)
      simp only [firstPreferredG, firstPreferred, plookup_extractFields, hlk,
        Option.map_some', hv]
      by_cases he : (extractText v).isEmpty
      · simp only [he, Bool.not_true, Bool.false_eq_true, if_false]
        exact ih
      · simp only [Bool.not_eq_true'] at he
        simp [he]

theorem extractTextF_spec : ∀ f j, needE j ≤ f →
    extractTextF f j = some (extractText j) := by
  intro f
  induction f with
  | zero =>
    intro j hj
    have := needE_pos j
    omega
  | succ f ih =>
    intro j hj
    cases j with
    | null => rfl
    | bool b => rfl
    | num n => rfl
    | str s => rfl
    | arr items =>
      simp only [extractTextF]
      rw [mapOpt_extract f ih items (by simp only [needE] at hj; omega)]
      rfl
    | obj fields =>
      have hfp : needEP fields ≤ f := by simp only [needE] at hj; omega
      simp only [extractTextF]
      rw [firstPreferredG_extract f ih fields preferredKeys hfp]
      cases hfirst : firstPreferred (extractFields fields) preferredKeys with
      | some t => simp [extractText, hfirst]
      | none =>
        rw [mapOpt_extract_vals f ih fields hfp]
        simp [extractText, hfirst]

/-- Claim C10: `extractTextFromUnknown` terminates on every finite JSON tree
and always returns a string: with any call-stack budget at least the tree's
depth measure, the literal fuel-bounded recursion completes and agrees with
the total extraction function; a string input is returned unchanged, and a
non-string, non-array, non-object input yields the empty string. -/
theorem extractText_total_spec (j : Json) (f : Nat) (hf : needE j ≤ f) :
    extractTextF f j = some (extractText j) ∧
    (∀ s, extractText (Json.str s) = s) ∧
    extractText Json.null = [] ∧
    (∀ b, extractText (Json.bool b) = []) ∧
    (∀ n, extractText (Json.num n) = []) :=
  ⟨extractTextF_spec f j hf, fun _ => rfl, rfl, fun _ => rfl, fun _ => rfl⟩

/-- Witness for C10: a nested object evaluated at an adequate concrete fuel. -/
theorem extractText_total_spec_witness :
    extractTextF 3 (Json.obj [(js "result",
        Json.obj [(js "text", Json.str (js "zz"))])]) =
      some (extractText (Json.obj [(js "result",
        Json.obj [(js "text", Json.str (js "zz"))])])) :=
  (extractText_total_spec (Json.obj [(js "result",
    Json.obj [(js "text", Json.str (js "zz"))])]) 3 (by decide)).1
